import Mathlib

/-!
Verification of `qosst_bob.dsp.zc.synchronisation_zc`.

Shallow embedding of the Zadoff-Chu time-synchronisation routine
`synchronisation_zc` from `src/qosst_bob/dsp/zc.py`, together with models of
the numeric library primitives it calls (`numpy.abs`, `numpy.argmax`,
`scipy.ndimage.uniform_filter1d`, `scipy.signal.correlate` /
`scipy.signal.correlation_lags` in mode `"same"`, Python `int()` truncation
and slicing).  IEEE floating point is idealised as exact rational
arithmetic; all concrete inputs used below have exactly representable
values, and the properties at stake are index bookkeeping, not rounding of
sample values.
-/

/-- Truncation toward zero, the semantics of Python's `int()` applied to a
real number. -/
def ratTrunc (q : ℚ) : ℤ := if q < 0 then -⌊-q⌋ else ⌊q⌋

/-- Integer square root by bounded search (largest `k ≤ n` with `k*k ≤ n`);
agrees with `Nat.sqrt` but is structurally recursive so that closed
instances reduce inside the kernel. -/
def isqrt (n : ℕ) : ℕ := (List.range (n + 1)).foldl (fun acc k => if k * k ≤ n then k else acc) 0

/-- Square root of a nonnegative rational, exact on perfect squares (the
only inputs this development ever takes square roots of: magnitudes of
complex samples whose squared norm is `0`, `1` or another perfect square). -/
def ratSqrt (q : ℚ) : ℚ := (isqrt q.num.toNat : ℚ) / (isqrt q.den : ℚ)

/-- Complex numbers with rational components, modelling the complex samples
of the captured signal and of the Zadoff-Chu pilot. -/
structure Cplx where
  re : ℚ
  im : ℚ
deriving DecidableEq, Repr

namespace Cplx

def zero : Cplx := ⟨0, 0⟩

def one : Cplx := ⟨1, 0⟩

def add (z w : Cplx) : Cplx := ⟨z.re + w.re, z.im + w.im⟩

def mul (z w : Cplx) : Cplx := ⟨z.re * w.re - z.im * w.im, z.re * w.im + z.im * w.re⟩

def conj (z : Cplx) : Cplx := ⟨z.re, -z.im⟩

/-- Squared magnitude. -/
def normSq (z : Cplx) : ℚ := z.re * z.re + z.im * z.im

/-- `z ^ e` by repeated multiplication. -/
def cpow (z : Cplx) : ℕ → Cplx
  | 0 => one
  | e + 1 => mul z (cpow z e)

/-- Sum of a list of complex numbers. -/
def csum (l : List Cplx) : Cplx := l.foldr add zero

instance : Inhabited Cplx := ⟨zero⟩

/-- numpy compares complex values lexicographically (real part first, then
imaginary part); `np.argmax` on a complex array uses this order. -/
instance : LinearOrder Cplx :=
  LinearOrder.lift' (fun z => (toLex (z.re, z.im) : ℚ ×ₗ ℚ))
    (by
      intro a b h
      have h2 : (a.re, a.im) = (b.re, b.im) := toLex.injective h
      cases a; cases b
      simp only [Prod.mk.injEq] at h2
      simp [h2.1, h2.2])

theorem lt_def (z w : Cplx) : z < w ↔ z.re < w.re ∨ (z.re = w.re ∧ z.im < w.im) := by
  have h : z < w ↔ (toLex (z.re, z.im) : ℚ ×ₗ ℚ) < toLex (w.re, w.im) := Iff.rfl
  rw [h, Prod.Lex.lt_iff]

end Cplx

/-- `numpy.abs` on one complex sample. -/
def npAbs (z : Cplx) : ℚ := ratSqrt z.normSq

/-- `numpy.abs` applied elementwise to an array. -/
def npAbsList (l : List Cplx) : List ℚ := l.map npAbs

/-- Python slice `l[s:e]` for integer bounds `0 ≤ s, e` (slice bounds are
clamped to the list, and `s ≥ e` gives the empty list); every reachable
slice in `synchronisation_zc` has nonnegative bounds. -/
def pySlice {α : Type} (l : List α) (s e : ℤ) : List α := (l.take e.toNat).drop s.toNat

/-- Reflected ("mirror including the edge") index extension used by
`scipy.ndimage` boundary mode `'reflect'`: the extended signal is periodic
with period `2*N` and reads `d c b a | a b c d | d c b a`. -/
def reflectIdx (N : ℕ) (i : ℤ) : ℕ :=
  let m := (i % (2 * (N : ℤ))).toNat
  if m < N then m else 2 * N - 1 - m

/-- `scipy.ndimage.uniform_filter1d(input, size)` with the default
`mode='reflect'`, `origin=0`: output `i` is the mean of the `size` extended
input samples at positions `i - size/2 + j`, `j < size`.  (scipy raises on
a nonpositive `size`; `synchronisation_zc` below models that error before
calling this function.) -/
def uniform_filter1d (input : List ℚ) (size : ℕ) : List ℚ :=
  (List.range input.length).map (fun (i : ℕ) =>
    ((List.range size).map
      (fun (j : ℕ) => input.getD (reflectIdx input.length ((i : ℤ) + (j : ℤ) - ((size / 2 : ℕ) : ℤ))) 0)).sum
      / (size : ℚ))

/-- `numpy.argmax`: index of the first occurrence of the maximum, `none` on
an empty array (numpy raises `ValueError` there). -/
def npArgmax {α : Type} [LinearOrder α] : List α → Option ℕ
  | [] => none
  | x :: xs =>
    match npArgmax xs with
    | none => some 0
    | some k =>
      match xs.get? k with
      | none => some 0
      | some v => if x < v then some (k + 1) else some 0

/-- Modelled from the spec: the Reference Sequence Provider
`qosst_core.comm.zc.zcsequence` (an external collaborator, not part of this
repository) deterministically produces `zc_length` unit-magnitude complex
values from `(zc_root, zc_length)`.  The model uses powers of the rational
unit-circle point `3/5 + (4/5)i` so magnitudes are exactly representable. -/
def zcsequence (root length : ℤ) : List Cplx :=
  (List.range length.toNat).map (fun (k : ℕ) => Cplx.cpow ⟨3/5, 4/5⟩ (root.natAbs * k * (k + 1)))

/-- Modelled from the spec: the Resampler `qosst_bob.dsp.resample.upsample`
(code of this repository that is not under `src/`) stretches a sequence by
`factor` using zero-order-hold interpolation: output length
`int(len * factor)`, output sample `i` holds input sample `int(i / factor)`.
The `order` argument (hold order, always `0` at the call site) is accepted
for interface fidelity. -/
def upsample (l : List Cplx) (factor : ℚ) (_order : ℕ) : List Cplx :=
  (List.range (ratTrunc ((l.length : ℚ) * factor)).toNat).map
    (fun (i : ℕ) => l.getD (ratTrunc ((i : ℚ) / factor)).toNat Cplx.zero)

/-- `scipy.signal.correlation_lags(in1_len, in2_len, mode="same")`,
transcribed from scipy: slice the full-mode lag vector
`arange(-in2_len+1, in1_len)` at `[mid-lag_bound : mid+lag_bound(+1)]` with
`mid = (in1_len+in2_len-1)//2` and `lag_bound = in1_len//2`. -/
def correlation_lags_same (in1_len in2_len : ℕ) : List ℤ :=
  let lagsFull : List ℤ := (List.range (in1_len + in2_len - 1)).map (fun (k : ℕ) => (k : ℤ) + 1 - (in2_len : ℤ))
  let mid : ℕ := (in1_len + in2_len - 1) / 2
  let lag_bound : ℕ := in1_len / 2
  if in1_len % 2 = 0 then
    pySlice lagsFull ((mid : ℤ) - (lag_bound : ℤ)) ((mid : ℤ) + (lag_bound : ℤ))
  else
    pySlice lagsFull ((mid : ℤ) - (lag_bound : ℤ)) ((mid : ℤ) + (lag_bound : ℤ) + 1)

/-- `l[i]` with zero padding outside `[0, l.length)`, as used by a linear
cross-correlation. -/
def getZQ (l : List ℚ) (i : ℤ) : ℚ := if 0 ≤ i then l.getD i.toNat 0 else 0

/-- `l[i]` with zero padding, complex version. -/
def getZC (l : List Cplx) (i : ℤ) : Cplx := if 0 ≤ i then l.getD i.toNat Cplx.zero else Cplx.zero

/-- Value of the full linear cross-correlation of `a` against `b` at lag
`λ`: `Σ_j a[λ+j] * b[j]` (real inputs need no conjugation). -/
def corrAtQ (a b : List ℚ) (lam : ℤ) : ℚ :=
  ((List.range b.length).map (fun (j : ℕ) => getZQ a (lam + (j : ℤ)) * b.getD j 0)).sum

/-- Value of the full complex cross-correlation at lag `λ`:
`Σ_j a[λ+j] * conj(b[j])`, the convention of `scipy.signal.correlate`. -/
def corrAtC (a b : List Cplx) (lam : ℤ) : Cplx :=
  Cplx.csum ((List.range b.length).map
    (fun (j : ℕ) => Cplx.mul (getZC a (lam + (j : ℤ))) (Cplx.conj (b.getD j Cplx.zero))))

/-- `scipy.signal.correlate(a, b, mode="full")` over the reals: entry `k`
is the correlation at lag `k - (len(b) - 1)`. -/
def corrFullQ (a b : List ℚ) : List ℚ :=
  (List.range (a.length + b.length - 1)).map (fun (k : ℕ) => corrAtQ a b ((k : ℤ) - ((b.length : ℤ) - 1)))

/-- `scipy.signal.correlate(a, b, mode="full")` over complex values. -/
def corrFullC (a b : List Cplx) : List Cplx :=
  (List.range (a.length + b.length - 1)).map (fun (k : ℕ) => corrAtC a b ((k : ℤ) - ((b.length : ℤ) - 1)))

/-- `scipy.signal.correlate(a, b, mode="same")`: the centered slice of the
full output, starting at `(len(full) - len(a)) // 2 = (len(b) - 1) // 2`
(scipy `_centered`). -/
def corrSameQ (a b : List ℚ) : List ℚ :=
  pySlice (corrFullQ a b) (((b.length - 1) / 2 : ℕ) : ℤ) ((((b.length - 1) / 2 : ℕ) : ℤ) + (a.length : ℤ))

/-- `scipy.signal.correlate(a, b, mode="same")` over complex values. -/
def corrSameC (a b : List Cplx) : List Cplx :=
  pySlice (corrFullC a b) (((b.length - 1) / 2 : ℕ) : ℤ) ((((b.length - 1) / 2 : ℕ) : ℤ) + (a.length : ℤ))

/-- Failures surfaced by `synchronisation_zc`.  The code itself performs no
validation: `invalidFilterSize` is the error scipy raises inside
`uniform_filter1d` for a nonpositive window, and `emptyArgmax` the error
numpy/scipy raise for an argmax/correlation over an empty array.
`invalidParameter` models the `InvalidParameterError` that the
specification describes; it exists in this type so its absence from the
code's behaviour can be stated. -/
inductive SyncError where
  | invalidParameter
  | invalidFilterSize
  | emptyArgmax
deriving DecidableEq, Repr

/-- Line 76: `uniform_filter_length = int(zc_length * resample)`. -/
def uniformFilterLength (zc_length : ℤ) (resample : ℚ) : ℤ := ratTrunc ((zc_length : ℚ) * resample)

/-- Line 77: `envelope = uniform_filter1d(np.abs(data), uniform_filter_length)`. -/
def envelopeOf (data : List Cplx) (ufl : ℤ) : List ℚ := uniform_filter1d (npAbsList data) ufl.toNat

/-- Line 78: `approx_zc = int(np.argmax(envelope) - uniform_filter_length / 2)`
given the argmax value `am`. -/
def approxZc (am : ℕ) (ufl : ℤ) : ℤ := ratTrunc ((am : ℚ) - (ufl : ℚ) / 2)

/-- Lines 80-82: `zadoff_chu = upsample(zcsequence(zc_root, zc_length), resample, 0)`. -/
def zadoffChuOf (zc_root zc_length : ℤ) (resample : ℚ) : List Cplx :=
  upsample (zcsequence zc_root zc_length) resample 0

/-- Line 91: `xcorr_start_point = max(approx_zc - 2 * n, 0)`. -/
def xcorrStartPoint (approx_zc n : ℤ) : ℤ := max (approx_zc - 2 * n) 0

/-- Line 92: `xcorr_end_point = min(approx_zc + 2 * n, len(data))`. -/
def xcorrEndPoint (approx_zc n : ℤ) (data_len : ℕ) : ℤ := min (approx_zc + 2 * n) (data_len : ℤ)

/-- Lines 94-100: the lag index selected by `np.argmax(xcorr)` where
`xcorr` is the same-mode cross-correlation of lines 95-98 — of the
magnitudes when `use_abs`, of the raw complex samples otherwise (numpy's
argmax over a complex array uses the lexicographic order). -/
def xcorrArgmax (use_abs : Bool) (data_zc zadoff_chu : List Cplx) : Option ℕ :=
  if use_abs then npArgmax (corrSameQ (npAbsList data_zc) (npAbsList zadoff_chu))
  else npArgmax (corrSameC data_zc zadoff_chu)

/-- Shallow embedding of `synchronisation_zc` (src/qosst_bob/dsp/zc.py,
lines 36-104).  The two `.error` exits model the exceptions the numeric
collaborators raise (scipy's invalid filter size for a nonpositive window;
numpy's/scipy's error for an argmax or correlation over an empty array) —
the function body itself contains no validation.  Logging calls are pure
side channels and are omitted. -/
def synchronisation_zc (data : List Cplx) (zc_root zc_length : ℤ) (resample : ℚ)
    (use_abs : Bool) (_ratio_approx : ℤ) : Except SyncError (ℤ × ℤ) :=
  let uniform_filter_length := uniformFilterLength zc_length resample
  if uniform_filter_length ≤ 0 then .error .invalidFilterSize
  else
    match npArgmax (envelopeOf data uniform_filter_length) with
    | none => .error .emptyArgmax
    | some am =>
      let approx_zc := approxZc am uniform_filter_length
      let zadoff_chu := zadoffChuOf zc_root zc_length resample
      let n : ℤ := (zadoff_chu.length : ℤ)
      let xcorr_start_point := xcorrStartPoint approx_zc n
      let xcorr_end_point := xcorrEndPoint approx_zc n data.length
      let data_zc := pySlice data xcorr_start_point xcorr_end_point
      let lags := correlation_lags_same data_zc.length zadoff_chu.length
      match xcorrArgmax use_abs data_zc zadoff_chu with
      | none => .error .emptyArgmax
      | some k =>
        let beginning_zc := lags.getD k 0 + xcorr_start_point
        let end_zc := n + beginning_zc
        .ok (beginning_zc, end_zc)

/-! ## Basic facts about the arithmetic primitives -/

theorem ratTrunc_of_nonneg {q : ℚ} (h : 0 ≤ q) : ratTrunc q = ⌊q⌋ := by
  unfold ratTrunc
  rw [if_neg (not_lt.2 h)]

theorem ratTrunc_of_neg {q : ℚ} (h : q < 0) : ratTrunc q = ⌈q⌉ := by
  unfold ratTrunc
  rw [if_pos h, ← Int.ceil_neg, neg_neg]

theorem ratTrunc_intCast (z : ℤ) : ratTrunc (z : ℚ) = z := by
  rcases lt_or_le (z : ℚ) 0 with h | h
  · rw [ratTrunc_of_neg h, Int.ceil_intCast]
  · rw [ratTrunc_of_nonneg h, Int.floor_intCast]

theorem floor_le_ratTrunc (q : ℚ) : ⌊q⌋ ≤ ratTrunc q := by
  rcases lt_or_le q 0 with h | h
  · rw [ratTrunc_of_neg h]; exact Int.floor_le_ceil q
  · rw [ratTrunc_of_nonneg h]

theorem ratTrunc_le_ceil (q : ℚ) : ratTrunc q ≤ ⌈q⌉ := by
  rcases lt_or_le q 0 with h | h
  · rw [ratTrunc_of_neg h]
  · rw [ratTrunc_of_nonneg h]; exact Int.floor_le_ceil q

theorem ratTrunc_le_of_le {q : ℚ} {z : ℤ} (h : q ≤ (z : ℚ)) : ratTrunc q ≤ z :=
  le_trans (ratTrunc_le_ceil q) (Int.ceil_le.2 h)

theorem le_ratTrunc_of_le {z : ℤ} {q : ℚ} (h : (z : ℚ) ≤ q) : z ≤ ratTrunc q :=
  le_trans (Int.le_floor.2 h) (floor_le_ratTrunc q)

theorem ratSqrt_one : ratSqrt 1 = 1 := by with_unfolding_all rfl

theorem ratSqrt_zero : ratSqrt 0 = 0 := by with_unfolding_all rfl

theorem npAbs_zero : npAbs Cplx.zero = 0 := by
  unfold npAbs Cplx.normSq Cplx.zero
  norm_num [ratSqrt_zero]

theorem npAbs_of_normSq_one {z : Cplx} (h : z.normSq = 1) : npAbs z = 1 := by
  unfold npAbs
  rw [h, ratSqrt_one]

/-! ## Facts about `reflectIdx` -/

theorem reflectIdx_lt {N : ℕ} (hN : 0 < N) (i : ℤ) : reflectIdx N i < N := by
  have h2N : (0 : ℤ) < 2 * N := by positivity
  have h1 : 0 ≤ i % (2 * (N : ℤ)) := Int.emod_nonneg i (by omega)
  have h2 : i % (2 * (N : ℤ)) < 2 * N := Int.emod_lt_of_pos i h2N
  simp only [reflectIdx]
  split
  · assumption
  · omega

theorem reflectIdx_of_nonneg {N : ℕ} {i : ℤ} (h0 : 0 ≤ i) (h1 : i < (N : ℤ)) :
    reflectIdx N i = i.toNat := by
  have he : i % (2 * (N : ℤ)) = i := Int.emod_eq_of_lt h0 (by omega)
  simp only [reflectIdx, he]
  rw [if_pos (by omega : i.toNat < N)]

theorem reflectIdx_of_neg {N : ℕ} {i : ℤ} (h0 : -(N : ℤ) ≤ i) (h1 : i < 0) :
    reflectIdx N i = (-i - 1).toNat := by
  have he : i % (2 * (N : ℤ)) = i + 2 * N := by
    have h2 : (i + 2 * (N : ℤ) * 1) % (2 * (N : ℤ)) = i % (2 * (N : ℤ)) :=
      @Int.add_mul_emod_self_left i (2 * (N : ℤ)) 1
    have h3 : (i + 2 * (N : ℤ)) % (2 * (N : ℤ)) = i % (2 * (N : ℤ)) := by
      rw [← h2]; ring_nf
    rw [← h3]
    exact Int.emod_eq_of_lt (by omega) (by omega)
  simp only [reflectIdx, he]
  rw [if_neg (by omega : ¬ ((i + 2 * (N : ℤ)).toNat < N))]
  omega

/-! ## Facts about `pySlice` -/

theorem pySlice_length {α : Type} (l : List α) {s e : ℤ} (hs : 0 ≤ s) (hse : s ≤ e)
    (he : e ≤ (l.length : ℤ)) : (pySlice l s e).length = (e - s).toNat := by
  unfold pySlice
  rw [List.length_drop, List.length_take]
  omega

theorem pySlice_getD {α : Type} (l : List α) {s e : ℤ} (d : α) (hs : 0 ≤ s) (hse : s ≤ e)
    (he : e ≤ (l.length : ℤ)) {i : ℕ} (hi : i < (e - s).toNat) :
    (pySlice l s e).getD i d = l.getD (s.toNat + i) d := by
  have hlen : (pySlice l s e).length = (e - s).toNat := pySlice_length l hs hse he
  have hi' : i < (pySlice l s e).length := by omega
  have hlt : s.toNat + i < l.length := by omega
  rw [List.getD_eq_getElem _ _ hi', List.getD_eq_getElem _ _ hlt]
  unfold pySlice
  rw [List.getElem_drop, List.getElem_take]

/-! ## Facts about `uniform_filter1d` -/

theorem uniform_filter1d_length (input : List ℚ) (size : ℕ) :
    (uniform_filter1d input size).length = input.length := by
  unfold uniform_filter1d
  rw [List.length_map, List.length_range]

theorem uniform_filter1d_getD (input : List ℚ) (size : ℕ) {i : ℕ} (hi : i < input.length) :
    (uniform_filter1d input size).getD i 0 =
      ((List.range size).map
        (fun (j : ℕ) => input.getD (reflectIdx input.length ((i : ℤ) + (j : ℤ) - ((size / 2 : ℕ) : ℤ))) 0)).sum
        / (size : ℚ) := by
  have hi' : i < (uniform_filter1d input size).length := by
    rw [uniform_filter1d_length]; exact hi
  rw [List.getD_eq_getElem _ _ hi']
  unfold uniform_filter1d
  simp only [List.getElem_map, List.getElem_range]

/-! ## Facts about `npArgmax` (numpy first-maximum argmax) -/

theorem npArgmax_cons_some {α : Type} [LinearOrder α] (x : α) (xs : List α) :
    ∃ k, npArgmax (x :: xs) = some k := by
  cases hx : npArgmax xs with
  | none => exact ⟨0, by simp only [npArgmax, hx]⟩
  | some m =>
    cases hg : xs.get? m with
    | none => exact ⟨0, by simp only [npArgmax, hx, hg]⟩
    | some v =>
      by_cases hlt : x < v
      · exact ⟨m + 1, by simp only [npArgmax, hx, hg, if_pos hlt]⟩
      · exact ⟨0, by simp only [npArgmax, hx, hg, if_neg hlt]⟩

theorem npArgmax_isSome {α : Type} [LinearOrder α] {l : List α} (h : l ≠ []) :
    ∃ k, npArgmax l = some k := by
  cases l with
  | nil => exact absurd rfl h
  | cons x xs => exact npArgmax_cons_some x xs

theorem npArgmax_eq_none {α : Type} [LinearOrder α] {l : List α} (h : npArgmax l = none) :
    l = [] := by
  cases l with
  | nil => rfl
  | cons x xs =>
    obtain ⟨k, hk⟩ := npArgmax_cons_some x xs
    rw [hk] at h
    exact absurd h (by simp)

theorem npArgmax_lt_length {α : Type} [LinearOrder α] {l : List α} {k : ℕ}
    (h : npArgmax l = some k) : k < l.length := by
  induction l generalizing k with
  | nil => simp [npArgmax] at h
  | cons x xs ih =>
    cases hx : npArgmax xs with
    | none =>
      simp only [npArgmax, hx, Option.some.injEq] at h
      subst h
      simp
    | some m =>
      cases hg : xs.get? m with
      | none =>
        simp only [npArgmax, hx, hg, Option.some.injEq] at h
        subst h
        simp
      | some v =>
        by_cases hlt : x < v
        · simp only [npArgmax, hx, hg, if_pos hlt, Option.some.injEq] at h
          subst h
          have := ih hx
          simp only [List.length_cons]
          omega
        · simp only [npArgmax, hx, hg, if_neg hlt, Option.some.injEq] at h
          subst h
          simp

theorem npArgmax_le {α : Type} [LinearOrder α] (d : α) {l : List α} {k : ℕ}
    (h : npArgmax l = some k) : ∀ j, j < l.length → l.getD j d ≤ l.getD k d := by
  induction l generalizing k with
  | nil => intro j hj; simp at hj
  | cons x xs ih =>
    intro j hj
    cases hx : npArgmax xs with
    | none =>
      have hxs : xs = [] := npArgmax_eq_none hx
      subst hxs
      simp only [npArgmax, hx, Option.some.injEq] at h
      subst h
      simp only [List.length_cons, List.length_nil] at hj
      interval_cases j
      · simp
    | some m =>
      have hm : m < xs.length := npArgmax_lt_length hx
      have hget : xs.get? m = some (xs.getD m d) := by
        rw [List.getD_eq_getD_get?]
        cases hg : xs.get? m with
        | none =>
          rw [List.get?_eq_none] at hg
          omega
        | some v => rfl
      by_cases hlt : x < xs.getD m d
      · simp only [npArgmax, hx, hget, if_pos hlt, Option.some.injEq] at h
        subst h
        have hk' : (x :: xs).getD (m + 1) d = xs.getD m d := by simp
        rw [hk']
        cases j with
        | zero => simpa using le_of_lt hlt
        | succ j' =>
          have hj' : j' < xs.length := by simpa using hj
          simpa using ih hx j' hj'
      · simp only [npArgmax, hx, hget, if_neg hlt, Option.some.injEq] at h
        subst h
        have hk' : (x :: xs).getD 0 d = x := by simp
        rw [hk']
        cases j with
        | zero => simp
        | succ j' =>
          have hj' : j' < xs.length := by simpa using hj
          have h1 : xs.getD j' d ≤ xs.getD m d := ih hx j' hj'
          simpa using le_trans h1 (not_lt.1 hlt)

theorem npArgmax_first {α : Type} [LinearOrder α] (d : α) {l : List α} {k : ℕ}
    (h : npArgmax l = some k) : ∀ j, j < k → l.getD j d < l.getD k d := by
  induction l generalizing k with
  | nil => simp [npArgmax] at h
  | cons x xs ih =>
    intro j hj
    cases hx : npArgmax xs with
    | none =>
      simp only [npArgmax, hx, Option.some.injEq] at h
      omega
    | some m =>
      have hm : m < xs.length := npArgmax_lt_length hx
      have hget : xs.get? m = some (xs.getD m d) := by
        rw [List.getD_eq_getD_get?]
        cases hg : xs.get? m with
        | none =>
          rw [List.get?_eq_none] at hg
          omega
        | some v => rfl
      by_cases hlt : x < xs.getD m d
      · simp only [npArgmax, hx, hget, if_pos hlt, Option.some.injEq] at h
        subst h
        cases j with
        | zero => simpa using hlt
        | succ j' =>
          have hj' : j' < m := by omega
          simpa using ih hx j' hj'
      · simp only [npArgmax, hx, hget, if_neg hlt, Option.some.injEq] at h
        omega

theorem npArgmax_eq_of_first_max {α : Type} [LinearOrder α] (d : α) {l : List α} {k : ℕ}
    (hk : k < l.length)
    (hfirst : ∀ j, j < k → l.getD j d < l.getD k d)
    (hmax : ∀ j, j < l.length → l.getD j d ≤ l.getD k d) :
    npArgmax l = some k := by
  induction l generalizing k with
  | nil => simp at hk
  | cons x xs ih =>
    cases k with
    | zero =>
      cases hx : npArgmax xs with
      | none => simp only [npArgmax, hx]
      | some m =>
        have hm : m < xs.length := npArgmax_lt_length hx
        have hget : xs.get? m = some (xs.getD m d) := by
          rw [List.getD_eq_getD_get?]
          cases hg : xs.get? m with
          | none =>
            rw [List.get?_eq_none] at hg
            omega
          | some v => rfl
        have hle : xs.getD m d ≤ x := by
          have := hmax (m + 1) (by simpa using hm)
          simpa using this
        simp only [npArgmax, hx, hget, if_neg (not_lt.2 hle)]
    | succ k' =>
      have hk' : k' < xs.length := by simpa using hk
      have hfirst' : ∀ j, j < k' → xs.getD j d < xs.getD k' d := by
        intro j hj
        have := hfirst (j + 1) (by omega)
        simpa using this
      have hmax' : ∀ j, j < xs.length → xs.getD j d ≤ xs.getD k' d := by
        intro j hj
        have := hmax (j + 1) (by simpa using hj)
        simpa using this
      have hxs : npArgmax xs = some k' := ih hk' hfirst' hmax'
      have hget : xs.get? k' = some (xs.getD k' d) := by
        rw [List.getD_eq_getD_get?]
        cases hg : xs.get? k' with
        | none =>
          rw [List.get?_eq_none] at hg
          omega
        | some v => rfl
      have hx : x < xs.getD k' d := by
        have := hfirst 0 (by omega)
        simpa using this
      simp only [npArgmax, hxs, hget, if_pos hx]

/-! ## Facts about `correlation_lags_same` and the correlation primitives -/

theorem lagsFull_getD (L n : ℕ) {m : ℕ} (hm : m < L + n - 1) :
    (((List.range (L + n - 1)).map (fun (k : ℕ) => (k : ℤ) + 1 - (n : ℤ)))).getD m 0 =
      (m : ℤ) + 1 - n := by
  have hm' : m < ((List.range (L + n - 1)).map (fun (k : ℕ) => (k : ℤ) + 1 - (n : ℤ))).length := by
    rw [List.length_map, List.length_range]; exact hm
  rw [List.getD_eq_getElem _ _ hm']
  simp

theorem correlation_lags_same_length (L n : ℕ) (hn : 1 ≤ n) (hL : 1 ≤ L) :
    (correlation_lags_same L n).length = L := by
  have hlen : ((List.range (L + n - 1)).map (fun (k : ℕ) => (k : ℤ) + 1 - (n : ℤ))).length
      = L + n - 1 := by rw [List.length_map, List.length_range]
  simp only [correlation_lags_same]
  split
  · rw [pySlice_length _ (by omega) (by omega) (by rw [hlen]; omega)]
    omega
  · rw [pySlice_length _ (by omega) (by omega) (by rw [hlen]; omega)]
    omega

theorem correlation_lags_same_getD (L n : ℕ) (hn : 1 ≤ n) (hL : 1 ≤ L) {i : ℕ} (hi : i < L) :
    (correlation_lags_same L n).getD i 0 =
      (i : ℤ) + (((L + n - 1) / 2 : ℕ) : ℤ) - ((L / 2 : ℕ) : ℤ) + 1 - (n : ℤ) := by
  have hlen : ((List.range (L + n - 1)).map (fun (k : ℕ) => (k : ℤ) + 1 - (n : ℤ))).length
      = L + n - 1 := by rw [List.length_map, List.length_range]
  have hmb : (L / 2 : ℕ) ≤ ((L + n - 1) / 2 : ℕ) := Nat.div_le_div_right (by omega)
  simp only [correlation_lags_same]
  split
  case isTrue hpar =>
    rw [pySlice_getD _ 0 (by omega) (by omega) (by rw [hlen]; omega) (by omega)]
    rw [lagsFull_getD L n (by omega)]
    omega
  case isFalse hpar =>
    rw [pySlice_getD _ 0 (by omega) (by omega) (by rw [hlen]; omega) (by omega)]
    rw [lagsFull_getD L n (by omega)]
    omega

theorem corrFullQ_length (a b : List ℚ) :
    (corrFullQ a b).length = a.length + b.length - 1 := by
  unfold corrFullQ
  rw [List.length_map, List.length_range]

theorem corrFullQ_getD (a b : List ℚ) {m : ℕ} (hm : m < a.length + b.length - 1) :
    (corrFullQ a b).getD m 0 = corrAtQ a b ((m : ℤ) - ((b.length : ℤ) - 1)) := by
  have hm' : m < (corrFullQ a b).length := by rw [corrFullQ_length]; exact hm
  rw [List.getD_eq_getElem _ _ hm']
  unfold corrFullQ
  simp

theorem corrSameQ_length (a b : List ℚ) (ha : 1 ≤ a.length) (hb : 1 ≤ b.length) :
    (corrSameQ a b).length = a.length := by
  unfold corrSameQ
  rw [pySlice_length _ (by omega) (by omega) (by rw [corrFullQ_length]; omega)]
  omega

theorem corrSameQ_getD (a b : List ℚ) (ha : 1 ≤ a.length) (hb : 1 ≤ b.length)
    {i : ℕ} (hi : i < a.length) :
    (corrSameQ a b).getD i 0 =
      corrAtQ a b ((i : ℤ) + (((b.length - 1) / 2 : ℕ) : ℤ) - ((b.length : ℤ) - 1)) := by
  unfold corrSameQ
  rw [pySlice_getD _ 0 (by omega) (by omega) (by rw [corrFullQ_length]; omega) (by omega)]
  rw [corrFullQ_getD a b (by omega)]
  congr 1
  omega

theorem corrFullC_length (a b : List Cplx) :
    (corrFullC a b).length = a.length + b.length - 1 := by
  unfold corrFullC
  rw [List.length_map, List.length_range]

theorem corrFullC_getD (a b : List Cplx) {m : ℕ} (hm : m < a.length + b.length - 1) :
    (corrFullC a b).getD m Cplx.zero = corrAtC a b ((m : ℤ) - ((b.length : ℤ) - 1)) := by
  have hm' : m < (corrFullC a b).length := by rw [corrFullC_length]; exact hm
  rw [List.getD_eq_getElem _ _ hm']
  unfold corrFullC
  simp

theorem corrSameC_length (a b : List Cplx) (ha : 1 ≤ a.length) (hb : 1 ≤ b.length) :
    (corrSameC a b).length = a.length := by
  unfold corrSameC
  rw [pySlice_length _ (by omega) (by omega) (by rw [corrFullC_length]; omega)]
  omega

theorem corrSameC_getD (a b : List Cplx) (ha : 1 ≤ a.length) (hb : 1 ≤ b.length)
    {i : ℕ} (hi : i < a.length) :
    (corrSameC a b).getD i Cplx.zero =
      corrAtC a b ((i : ℤ) + (((b.length - 1) / 2 : ℕ) : ℤ) - ((b.length : ℤ) - 1)) := by
  unfold corrSameC
  rw [pySlice_getD _ Cplx.zero (by omega) (by omega) (by rw [corrFullC_length]; omega) (by omega)]
  rw [corrFullC_getD a b (by omega)]
  congr 1
  omega

/-! ## Sum bounds -/

theorem list_sum_le_length {l : List ℚ} (h : ∀ x ∈ l, x ≤ 1) : l.sum ≤ (l.length : ℚ) := by
  induction l with
  | nil => simp
  | cons x xs ih =>
    have hx : x ≤ 1 := h x (by simp)
    have hxs : xs.sum ≤ (xs.length : ℚ) := ih (fun y hy => h y (by simp [hy]))
    simp only [List.sum_cons, List.length_cons]
    push_cast
    linarith

theorem list_sum_of_all_one {l : List ℚ} (h : ∀ x ∈ l, x = 1) : l.sum = (l.length : ℚ) := by
  induction l with
  | nil => simp
  | cons x xs ih =>
    have hx : x = 1 := h x (by simp)
    have hxs : xs.sum = (xs.length : ℚ) := ih (fun y hy => h y (by simp [hy]))
    simp only [List.sum_cons, List.length_cons, hx, hxs]
    push_cast
    ring

theorem list_sum_le_length_sub_one {l : List ℚ} (h1 : ∀ x ∈ l, x ≤ 1) {j : ℕ}
    (hj : j < l.length) (hz : l.getD j 0 = 0) : l.sum ≤ (l.length : ℚ) - 1 := by
  induction l generalizing j with
  | nil => simp at hj
  | cons x xs ih =>
    cases j with
    | zero =>
      have hx : x = 0 := by simpa using hz
      have hxs : xs.sum ≤ (xs.length : ℚ) := list_sum_le_length (fun y hy => h1 y (by simp [hy]))
      simp only [List.sum_cons, List.length_cons, hx]
      push_cast
      linarith
    | succ j' =>
      have hj' : j' < xs.length := by simpa using hj
      have hz' : xs.getD j' 0 = 0 := by simpa using hz
      have hxs : xs.sum ≤ (xs.length : ℚ) - 1 := ih (fun y hy => h1 y (by simp [hy])) hj' hz'
      have hx : x ≤ 1 := h1 x (by simp)
      simp only [List.sum_cons, List.length_cons]
      push_cast
      linarith

theorem Cplx.csum_re (l : List Cplx) : (Cplx.csum l).re = (l.map Cplx.re).sum := by
  induction l with
  | nil => rfl
  | cons x xs ih =>
    simp only [Cplx.csum, List.foldr_cons, List.map_cons, List.sum_cons]
    show (Cplx.add x (Cplx.csum xs)).re = x.re + (xs.map Cplx.re).sum
    rw [← ih]
    rfl

theorem Cplx.csum_im (l : List Cplx) : (Cplx.csum l).im = (l.map Cplx.im).sum := by
  induction l with
  | nil => rfl
  | cons x xs ih =>
    simp only [Cplx.csum, List.foldr_cons, List.map_cons, List.sum_cons]
    show (Cplx.add x (Cplx.csum xs)).im = x.im + (xs.map Cplx.im).sum
    rw [← ih]
    rfl

/-! ## Facts about the collaborator models (`zcsequence`, `upsample`) -/

theorem Cplx.normSq_mul (z w : Cplx) : (Cplx.mul z w).normSq = z.normSq * w.normSq := by
  unfold Cplx.mul Cplx.normSq
  ring

theorem Cplx.normSq_cpow {z : Cplx} (h : z.normSq = 1) (e : ℕ) : (Cplx.cpow z e).normSq = 1 := by
  induction e with
  | zero =>
    show Cplx.one.normSq = 1
    unfold Cplx.one Cplx.normSq
    norm_num
  | succ e ih =>
    show (Cplx.mul z (Cplx.cpow z e)).normSq = 1
    rw [Cplx.normSq_mul, h, ih, one_mul]

theorem zcsequence_length (root len : ℤ) : (zcsequence root len).length = len.toNat := by
  unfold zcsequence
  rw [List.length_map, List.length_range]

theorem zcsequence_normSq {root len : ℤ} {z : Cplx} (hz : z ∈ zcsequence root len) :
    z.normSq = 1 := by
  unfold zcsequence at hz
  rw [List.mem_map] at hz
  obtain ⟨k, _, hk⟩ := hz
  rw [← hk]
  refine Cplx.normSq_cpow ?_ _
  unfold Cplx.normSq
  norm_num

theorem upsample_length (l : List Cplx) (factor : ℚ) (o : ℕ) :
    (upsample l factor o).length = (ratTrunc ((l.length : ℚ) * factor)).toNat := by
  unfold upsample
  rw [List.length_map, List.length_range]

theorem upsample_mem {l : List Cplx} {factor : ℚ} (hf : 0 < factor) {o : ℕ} {z : Cplx}
    (hz : z ∈ upsample l factor o) : z ∈ l := by
  unfold upsample at hz
  rw [List.mem_map] at hz
  obtain ⟨i, hi, hk⟩ := hz
  rw [List.mem_range] at hi
  have hlf : (0 : ℚ) ≤ (l.length : ℚ) * factor := by positivity
  have h1 : (i : ℤ) < ratTrunc ((l.length : ℚ) * factor) := by omega
  have h2 : ((i : ℤ) : ℚ) < (l.length : ℚ) * factor := by
    have hle : (ratTrunc ((l.length : ℚ) * factor) : ℚ) ≤ (l.length : ℚ) * factor := by
      rw [ratTrunc_of_nonneg hlf]
      exact Int.floor_le _
    have : ((i : ℤ) : ℚ) < (ratTrunc ((l.length : ℚ) * factor) : ℚ) := by
      exact_mod_cast h1
    linarith
  have hdiv : (i : ℚ) / factor < (l.length : ℚ) := by
    rw [div_lt_iff₀ hf]
    push_cast at h2 ⊢
    linarith
  have hlpos : 0 < l.length := by
    rcases Nat.eq_zero_or_pos l.length with h0 | h0
    · exfalso
      rw [h0] at h2
      push_cast at h2
      have hnn : (0 : ℚ) ≤ ((i : ℕ) : ℚ) := by positivity
      nlinarith
    · exact h0
  have hidx : (ratTrunc ((i : ℚ) / factor)).toNat < l.length := by
    have h0 : (0 : ℚ) ≤ (i : ℚ) / factor := by positivity
    rw [ratTrunc_of_nonneg h0]
    have hfl : ⌊(i : ℚ) / factor⌋ < (l.length : ℤ) := Int.floor_lt.2 (by exact_mod_cast hdiv)
    omega
  rw [← hk, List.getD_eq_getElem _ _ hidx]
  exact List.getElem_mem _

theorem zadoffChuOf_length {root zc_length : ℤ} (hl : 0 < zc_length) (resample : ℚ) :
    (zadoffChuOf root zc_length resample).length = (uniformFilterLength zc_length resample).toNat := by
  unfold zadoffChuOf uniformFilterLength
  rw [upsample_length, zcsequence_length]
  have hcast : ((zc_length.toNat : ℕ) : ℚ) = ((zc_length : ℤ) : ℚ) := by
    norm_cast
    omega
  rw [hcast]

theorem zadoffChuOf_normSq {root zc_length : ℤ} {resample : ℚ} (hf : 0 < resample) {z : Cplx}
    (hz : z ∈ zadoffChuOf root zc_length resample) : z.normSq = 1 :=
  zcsequence_normSq (upsample_mem hf hz)

/-! ## The synthetic signal of the exact-recovery property (§8) -/

/-- A synthetic Signal: a copy of the (already upsampled) pilot `zc` placed
at offset `o` inside an all-zero background of total length `N`. -/
def syntheticData (zc : List Cplx) (o N : ℕ) : List Cplx :=
  List.replicate o Cplx.zero ++ zc ++ List.replicate (N - o - zc.length) Cplx.zero

theorem getD_map_range {β : Type} (f : ℕ → β) (d : β) {s j : ℕ} (hj : j < s) :
    ((List.range s).map f).getD j d = f j := by
  have hj' : j < ((List.range s).map f).length := by
    rw [List.length_map, List.length_range]; exact hj
  rw [List.getD_eq_getElem _ _ hj']
  simp

theorem getD_replicate_self {α : Type} (a : α) (k t : ℕ) : (List.replicate k a).getD t a = a := by
  rcases lt_or_le t k with h | h
  · rw [List.getD_eq_getElem _ _ (by simpa using h)]
    simp
  · rw [List.getD_eq_default _ _ (by simpa using h)]

theorem syntheticData_length (zc : List Cplx) (o N : ℕ) (h : o + zc.length ≤ N) :
    (syntheticData zc o N).length = N := by
  unfold syntheticData
  simp only [List.length_append, List.length_replicate]
  omega

theorem syntheticData_getD (zc : List Cplx) (o N : ℕ) (h : o + zc.length ≤ N) (t : ℕ) :
    (syntheticData zc o N).getD t Cplx.zero =
      if o ≤ t ∧ t < o + zc.length then zc.getD (t - o) Cplx.zero else Cplx.zero := by
  unfold syntheticData
  rcases lt_or_le t (o + zc.length) with h1 | h1
  · rw [List.getD_append _ _ _ _ (by simp only [List.length_append, List.length_replicate]; omega)]
    rcases lt_or_le t o with h2 | h2
    · rw [List.getD_append _ _ _ _ (by simpa using h2)]
      rw [getD_replicate_self, if_neg (by omega)]
    · rw [List.getD_append_right _ _ _ _ (by simpa using h2)]
      simp only [List.length_replicate]
      rw [if_pos (by omega)]
  · rw [List.getD_append_right _ _ _ _ (by simp only [List.length_append, List.length_replicate]; omega)]
    rw [if_neg (by omega)]
    simp only [List.length_append, List.length_replicate]
    exact getD_replicate_self _ _ _

theorem npAbsList_length (l : List Cplx) : (npAbsList l).length = l.length := by
  unfold npAbsList
  rw [List.length_map]

theorem npAbsList_getD (l : List Cplx) (t : ℕ) :
    (npAbsList l).getD t 0 = npAbs (l.getD t Cplx.zero) := by
  rcases lt_or_le t l.length with h | h
  · have h' : t < (npAbsList l).length := by rw [npAbsList_length]; exact h
    rw [List.getD_eq_getElem _ _ h', List.getD_eq_getElem _ _ h]
    unfold npAbsList
    simp
  · have h' : (npAbsList l).length ≤ t := by rw [npAbsList_length]; exact h
    rw [List.getD_eq_default _ _ h', List.getD_eq_default _ _ h, npAbs_zero]

/-- The magnitude profile of the synthetic signal is the indicator of the
pilot's support `[o, o+n)`. -/
theorem npAbsList_syntheticData (zc : List Cplx) (o N : ℕ) (h : o + zc.length ≤ N)
    (hunit : ∀ z ∈ zc, z.normSq = 1) (t : ℕ) :
    (npAbsList (syntheticData zc o N)).getD t 0 =
      if o ≤ t ∧ t < o + zc.length then 1 else 0 := by
  rw [npAbsList_getD, syntheticData_getD zc o N h]
  split
  case isTrue hin =>
    refine npAbs_of_normSq_one (hunit _ ?_)
    have hlt : t - o < zc.length := by omega
    rw [List.getD_eq_getElem _ _ hlt]
    exact List.getElem_mem _
  case isFalse hout => exact npAbs_zero

/-! ## Stage 1 on the synthetic signal: the envelope argmax -/

/-- On an indicator input (support `[o, o+n)` inside length `N`), the
reflect-mode moving average of window `n` attains its unique first maximum
at `o + n/2` (at `0` when `o = 0`, where boundary reflection also fills the
window). -/
theorem envelope_argmax_synthetic (ind : List ℚ) (o n N : ℕ)
    (hn : 1 ≤ n) (hoN : o + n ≤ N)
    (hind_len : ind.length = N)
    (hind : ∀ t, ind.getD t 0 = if o ≤ t ∧ t < o + n then 1 else 0) :
    npArgmax (uniform_filter1d ind n) = some (if o = 0 then 0 else o + n / 2) := by
  have hN : 1 ≤ N := by omega
  have hElen : (uniform_filter1d ind n).length = N := by
    rw [uniform_filter1d_length, hind_len]
  have hnq : (0 : ℚ) < (n : ℚ) := by exact_mod_cast Nat.lt_of_lt_of_le Nat.zero_lt_one hn
  have hterm_le : ∀ t, ind.getD t 0 ≤ 1 := by
    intro t
    rw [hind t]
    split <;> norm_num
  -- every envelope entry is at most 1
  have henv_le : ∀ i, i < N → (uniform_filter1d ind n).getD i 0 ≤ 1 := by
    intro i hi
    rw [uniform_filter1d_getD ind n (by omega)]
    rw [div_le_one hnq]
    have hsum : ((List.range n).map
        (fun (j : ℕ) => ind.getD (reflectIdx ind.length ((i : ℤ) + (j : ℤ) - ((n / 2 : ℕ) : ℤ))) 0)).sum
        ≤ (((List.range n).map
        (fun (j : ℕ) => ind.getD (reflectIdx ind.length ((i : ℤ) + (j : ℤ) - ((n / 2 : ℕ) : ℤ))) 0)).length : ℚ) := by
      refine list_sum_le_length ?_
      intro x hx
      rw [List.mem_map] at hx
      obtain ⟨j, _, hj⟩ := hx
      rw [← hj]
      exact hterm_le _
    rw [List.length_map, List.length_range] at hsum
    exact hsum
  set i0 : ℕ := if o = 0 then 0 else o + n / 2 with hi0def
  have hi0N : i0 < N := by
    rw [hi0def]
    split <;> omega
  -- the envelope is exactly 1 at i0
  have henv_i0 : (uniform_filter1d ind n).getD i0 0 = 1 := by
    rw [uniform_filter1d_getD ind n (by omega)]
    have hall : ∀ x ∈ (List.range n).map
        (fun (j : ℕ) => ind.getD (reflectIdx ind.length ((i0 : ℤ) + (j : ℤ) - ((n / 2 : ℕ) : ℤ))) 0),
        x = 1 := by
      intro x hx
      rw [List.mem_map] at hx
      obtain ⟨j, hjmem, hj⟩ := hx
      rw [List.mem_range] at hjmem
      rw [← hj]
      set t : ℤ := (i0 : ℤ) + (j : ℤ) - ((n / 2 : ℕ) : ℤ) with htdef
      by_cases ho : o = 0
      · have hi0val : i0 = 0 := by rw [hi0def, if_pos ho]
        rcases le_or_lt (0 : ℤ) t with hc | hc
        · rw [reflectIdx_of_nonneg hc (by rw [hind_len]; omega), hind]
          rw [if_pos (by omega)]
        · rw [reflectIdx_of_neg (by rw [hind_len]; omega) hc, hind]
          rw [if_pos (by omega)]
      · have hi0val : i0 = o + n / 2 := by rw [hi0def, if_neg ho]
        have hc : (0 : ℤ) ≤ t := by omega
        rw [reflectIdx_of_nonneg hc (by rw [hind_len]; omega), hind]
        rw [if_pos (by omega)]
    have hsum := list_sum_of_all_one hall
    rw [List.length_map, List.length_range] at hsum
    rw [hsum]
    rw [div_self hnq.ne']
  -- every envelope entry strictly before i0 is < 1
  have henv_lt : ∀ i, i < i0 → (uniform_filter1d ind n).getD i 0 < 1 := by
    intro i hi
    have hiN : i < N := by omega
    have ho : ¬ o = 0 := by
      intro h0
      rw [hi0def, if_pos h0] at hi
      omega
    have hio : i < o + n / 2 := by
      rw [hi0def, if_neg ho] at hi
      exact hi
    rw [uniform_filter1d_getD ind n (by omega)]
    rw [div_lt_one hnq]
    set j0 : ℕ := n / 2 - i with hj0def
    have hj0n : j0 < n := by omega
    have hfj0 : ind.getD (reflectIdx ind.length ((i : ℤ) + (j0 : ℤ) - ((n / 2 : ℕ) : ℤ))) 0 = 0 := by
      set t : ℤ := (i : ℤ) + (j0 : ℤ) - ((n / 2 : ℕ) : ℤ) with htdef
      have hc : (0 : ℤ) ≤ t := by omega
      rw [reflectIdx_of_nonneg hc (by rw [hind_len]; omega), hind]
      rw [if_neg (by omega)]
    have hsum : ((List.range n).map
        (fun (j : ℕ) => ind.getD (reflectIdx ind.length ((i : ℤ) + (j : ℤ) - ((n / 2 : ℕ) : ℤ))) 0)).sum
        ≤ ((n : ℚ)) - 1 := by
      have hle1 : ∀ x ∈ (List.range n).map
          (fun (j : ℕ) => ind.getD (reflectIdx ind.length ((i : ℤ) + (j : ℤ) - ((n / 2 : ℕ) : ℤ))) 0),
          x ≤ 1 := by
        intro x hx
        rw [List.mem_map] at hx
        obtain ⟨j, _, hj⟩ := hx
        rw [← hj]
        exact hterm_le _
      have hjlen : j0 < ((List.range n).map
          (fun (j : ℕ) => ind.getD (reflectIdx ind.length ((i : ℤ) + (j : ℤ) - ((n / 2 : ℕ) : ℤ))) 0)).length := by
        rw [List.length_map, List.length_range]
        exact hj0n
      have hz : ((List.range n).map
          (fun (j : ℕ) => ind.getD (reflectIdx ind.length ((i : ℤ) + (j : ℤ) - ((n / 2 : ℕ) : ℤ))) 0)).getD j0 0
          = 0 := by
        rw [getD_map_range _ 0 hj0n]
        exact hfj0
      have h1 := list_sum_le_length_sub_one hle1 hjlen hz
      rw [List.length_map, List.length_range] at h1
      exact h1
    calc ((List.range n).map
        (fun (j : ℕ) => ind.getD (reflectIdx ind.length ((i : ℤ) + (j : ℤ) - ((n / 2 : ℕ) : ℤ))) 0)).sum
        ≤ ((n : ℚ)) - 1 := hsum
      _ < (n : ℚ) := by linarith
  -- conclude with the first-maximum characterisation of np.argmax
  refine npArgmax_eq_of_first_max 0 (by omega) ?_ ?_
  · intro j hj
    rw [henv_i0]
    exact henv_lt j hj
  · intro j hj
    rw [henv_i0]
    exact henv_le j (by omega)

/-! ## Stage 1 → stage 2: the coarse estimate on the synthetic signal -/

theorem floor_half_nat (n : ℕ) : ⌊(n : ℚ) / 2⌋ = ((n / 2 : ℕ) : ℤ) := by
  rw [Int.floor_eq_iff]
  constructor
  · rw [le_div_iff₀ (by norm_num : (0 : ℚ) < 2)]
    exact_mod_cast (by omega : n / 2 * 2 ≤ n)
  · rw [div_lt_iff₀ (by norm_num : (0 : ℚ) < 2)]
    exact_mod_cast (by omega : n < (n / 2 + 1) * 2)

/-- Value of `approx_zc = int(argmax - w/2)` on the synthetic scenario
(argmax as computed by `envelope_argmax_synthetic` and `w = n`):
`o - (n mod 2)` for an interior placement, `-(n/2)` for `o = 0`. -/
theorem approxZc_synthetic (o n : ℕ) (hn : 1 ≤ n) :
    approxZc (if o = 0 then 0 else o + n / 2) ((n : ℕ) : ℤ) =
      if o = 0 then -(((n / 2 : ℕ)) : ℤ) else (o : ℤ) - ((n % 2 : ℕ) : ℤ) := by
  unfold approxZc
  have hnq : (0 : ℚ) < (n : ℚ) := by exact_mod_cast Nat.lt_of_lt_of_le Nat.zero_lt_one hn
  by_cases ho : o = 0
  · rw [if_pos ho, if_pos ho]
    have hq : (((0 : ℕ)) : ℚ) - (((n : ℕ) : ℤ) : ℚ) / 2 = -((n : ℚ) / 2) := by
      push_cast
      ring
    rw [hq, ratTrunc_of_neg (by linarith)]
    rw [Int.ceil_neg, floor_half_nat]
  · rw [if_neg ho, if_neg ho]
    have ho1 : 1 ≤ o := by omega
    have hoq : (1 : ℚ) ≤ (o : ℚ) := by exact_mod_cast ho1
    rcases Nat.mod_two_eq_zero_or_one n with hr | hr
    · have hn2 : ((n : ℕ) : ℚ) = 2 * ((n / 2 : ℕ) : ℚ) := by
        exact_mod_cast congrArg (Nat.cast : ℕ → ℚ) (by omega : n = 2 * (n / 2))
      have hcast : ((o + n / 2 : ℕ) : ℚ) - (((n : ℕ) : ℤ) : ℚ) / 2 = ((o : ℤ) : ℚ) := by
        push_cast
        rw [hn2]
        ring
      rw [hcast, ratTrunc_intCast, hr]
      simp
    · have hn2 : ((n : ℕ) : ℚ) = 2 * ((n / 2 : ℕ) : ℚ) + 1 := by
        exact_mod_cast congrArg (Nat.cast : ℕ → ℚ) (by omega : n = 2 * (n / 2) + 1)
      have hcast : ((o + n / 2 : ℕ) : ℚ) - (((n : ℕ) : ℤ) : ℚ) / 2 = (o : ℚ) - 1 / 2 := by
        push_cast
        rw [hn2]
        ring
      rw [hcast, ratTrunc_of_nonneg (by linarith)]
      rw [hr]
      rw [Int.floor_eq_iff]
      constructor
      · push_cast
        linarith
      · push_cast
        linarith

/-! ## Stage 2 on the synthetic signal: the correlation argmax -/

/-- In the `use_abs = True` branch, correlating the indicator magnitudes of
the windowed signal (support `[p, p+n)` inside length `L`) against the
all-ones pilot magnitudes peaks strictly and first at output index
`p + n/2` of the same-mode correlation. -/
theorem corrQ_argmax (a b : List ℚ) (p n L : ℕ)
    (haL : a.length = L) (hbn : b.length = n) (h1 : 1 ≤ n) (hpn : p + n ≤ L)
    (hb : ∀ j, j < n → b.getD j 0 = 1)
    (ha : ∀ t, a.getD t 0 = if p ≤ t ∧ t < p + n then 1 else 0) :
    npArgmax (corrSameQ a b) = some (p + n / 2) := by
  have hL1 : 1 ≤ L := by omega
  have hlen : (corrSameQ a b).length = L := by
    rw [corrSameQ_length a b (by omega) (by omega), haL]
  have hget : ∀ i, i < L → (corrSameQ a b).getD i 0 =
      corrAtQ a b ((i : ℤ) + (((n - 1) / 2 : ℕ) : ℤ) - ((n : ℤ) - 1)) := by
    intro i hi
    rw [corrSameQ_getD a b (by omega) (by omega) (by omega)]
    rw [hbn]
  -- each term of any correlation value is at most 1
  have hterm_le : ∀ (lam : ℤ) (j : ℕ), j < n →
      getZQ a (lam + (j : ℤ)) * b.getD j 0 ≤ 1 := by
    intro lam j hj
    rw [hb j hj, mul_one]
    unfold getZQ
    split
    · rw [ha]
      split <;> norm_num
    · norm_num
  -- the correlation value at the aligned lag p is exactly n
  have hpeak : corrAtQ a b ((p : ℕ) : ℤ) = (n : ℚ) := by
    unfold corrAtQ
    rw [hbn]
    have hall : ∀ x ∈ (List.range n).map
        (fun (j : ℕ) => getZQ a (((p : ℕ) : ℤ) + (j : ℤ)) * b.getD j 0), x = 1 := by
      intro x hx
      rw [List.mem_map] at hx
      obtain ⟨j, hjmem, hj⟩ := hx
      rw [List.mem_range] at hjmem
      rw [← hj, hb j hjmem, mul_one]
      unfold getZQ
      rw [if_pos (by omega)]
      have htn : (((p : ℕ) : ℤ) + (j : ℤ)).toNat = p + j := by omega
      rw [htn, ha]
      rw [if_pos (by omega)]
    have hsum := list_sum_of_all_one hall
    rw [List.length_map, List.length_range] at hsum
    rw [hsum]
  -- away from the aligned lag the correlation value is at most n - 1
  have hoff : ∀ lam : ℤ, lam ≠ (p : ℤ) → corrAtQ a b lam ≤ (n : ℚ) - 1 := by
    intro lam hne
    unfold corrAtQ
    rw [hbn]
    have hle1 : ∀ x ∈ (List.range n).map
        (fun (j : ℕ) => getZQ a (lam + (j : ℤ)) * b.getD j 0), x ≤ 1 := by
      intro x hx
      rw [List.mem_map] at hx
      obtain ⟨j, hjmem, hj⟩ := hx
      rw [List.mem_range] at hjmem
      rw [← hj]
      exact hterm_le lam j hjmem
    rcases lt_or_gt_of_ne hne with hlt | hgt
    · -- lam < p : the first pilot sample falls before the support
      have hz : ((List.range n).map
          (fun (j : ℕ) => getZQ a (lam + (j : ℤ)) * b.getD j 0)).getD 0 0 = 0 := by
        rw [getD_map_range _ 0 (by omega)]
        rw [hb 0 (by omega), mul_one]
        unfold getZQ
        split
        · rw [ha]
          rw [if_neg (by omega)]
        · rfl
      have h := list_sum_le_length_sub_one hle1
        (by rw [List.length_map, List.length_range]; omega) hz
      rw [List.length_map, List.length_range] at h
      exact h
    · -- lam > p : the last pilot sample falls beyond the support
      have hz : ((List.range n).map
          (fun (j : ℕ) => getZQ a (lam + (j : ℤ)) * b.getD j 0)).getD (n - 1) 0 = 0 := by
        rw [getD_map_range _ 0 (by omega)]
        rw [hb (n - 1) (by omega), mul_one]
        unfold getZQ
        rw [if_pos (by omega)]
        rw [ha]
        rw [if_neg (by omega)]
      have h := list_sum_le_length_sub_one hle1
        (by rw [List.length_map, List.length_range]; omega) hz
      rw [List.length_map, List.length_range] at h
      exact h
  -- assemble: the peak output index
  have hstar : p + n / 2 < L := by omega
  have hlamstar : ((p + n / 2 : ℕ) : ℤ) + (((n - 1) / 2 : ℕ) : ℤ) - ((n : ℤ) - 1) = (p : ℤ) := by
    omega
  have hvstar : (corrSameQ a b).getD (p + n / 2) 0 = (n : ℚ) := by
    rw [hget _ hstar, hlamstar, hpeak]
  refine npArgmax_eq_of_first_max 0 (by omega) ?_ ?_
  · intro j hj
    have hjL : j < L := by omega
    rw [hvstar, hget _ hjL]
    have hne : (j : ℤ) + (((n - 1) / 2 : ℕ) : ℤ) - ((n : ℤ) - 1) ≠ (p : ℤ) := by omega
    have := hoff _ hne
    linarith
  · intro j hj
    have hjL : j < L := by omega
    rcases eq_or_ne j (p + n / 2) with heq | hne
    · rw [heq]
    · rw [hvstar, hget _ hjL]
      have hnel : (j : ℤ) + (((n - 1) / 2 : ℕ) : ℤ) - ((n : ℤ) - 1) ≠ (p : ℤ) := by omega
      have := hoff _ hnel
      linarith

theorem Cplx.mul_conj_self_re (z : Cplx) : (Cplx.mul z (Cplx.conj z)).re = z.normSq := by
  unfold Cplx.mul Cplx.conj Cplx.normSq
  ring

theorem Cplx.re_mul_conj_le_one {z w : Cplx} (hz : z.normSq = 1) (hw : w.normSq = 1) :
    (Cplx.mul z (Cplx.conj w)).re ≤ 1 := by
  unfold Cplx.normSq at hz hw
  show z.re * w.re - z.im * (-w.im) ≤ 1
  nlinarith [sq_nonneg (z.re - w.re), sq_nonneg (z.im - w.im)]

theorem Cplx.mul_zero_left (w : Cplx) : Cplx.mul Cplx.zero w = Cplx.zero := by
  unfold Cplx.mul Cplx.zero
  norm_num

/-- In the `use_abs = False` branch, correlating the windowed complex
signal (a copy of the unit-magnitude pilot at `[p, p+n)`, zeros elsewhere)
against the pilot itself peaks strictly and first — in numpy's
lexicographic complex order — at output index `p + n/2`. -/
theorem corrC_argmax (a b : List Cplx) (p n L : ℕ)
    (haL : a.length = L) (hbn : b.length = n) (h1 : 1 ≤ n) (hpn : p + n ≤ L)
    (hbu : ∀ z ∈ b, z.normSq = 1)
    (ha : ∀ t, a.getD t Cplx.zero =
      if p ≤ t ∧ t < p + n then b.getD (t - p) Cplx.zero else Cplx.zero) :
    npArgmax (corrSameC a b) = some (p + n / 2) := by
  have hL1 : 1 ≤ L := by omega
  have hlen : (corrSameC a b).length = L := by
    rw [corrSameC_length a b (by omega) (by omega), haL]
  have hget : ∀ i, i < L → (corrSameC a b).getD i Cplx.zero =
      corrAtC a b ((i : ℤ) + (((n - 1) / 2 : ℕ) : ℤ) - ((n : ℤ) - 1)) := by
    intro i hi
    rw [corrSameC_getD a b (by omega) (by omega) (by omega)]
    rw [hbn]
  have hbget : ∀ j, j < n → (b.getD j Cplx.zero).normSq = 1 := by
    intro j hj
    have hj' : j < b.length := by omega
    rw [List.getD_eq_getElem _ _ hj']
    exact hbu _ (List.getElem_mem _)
  -- real part of each correlation term is at most 1
  have hterm_le : ∀ (lam : ℤ) (j : ℕ), j < n →
      (Cplx.mul (getZC a (lam + (j : ℤ))) (Cplx.conj (b.getD j Cplx.zero))).re ≤ 1 := by
    intro lam j hj
    unfold getZC
    split
    · rw [ha]
      split
      · exact Cplx.re_mul_conj_le_one (hbget _ (by omega)) (hbget j hj)
      · rw [Cplx.mul_zero_left]
        norm_num [Cplx.zero]
    · rw [Cplx.mul_zero_left]
      norm_num [Cplx.zero]
  -- the real part at the aligned lag p is exactly n
  have hpeak : (corrAtC a b ((p : ℕ) : ℤ)).re = (n : ℚ) := by
    unfold corrAtC
    rw [Cplx.csum_re, hbn, List.map_map]
    have hall : ∀ x ∈ (List.range n).map
        (Cplx.re ∘ fun (j : ℕ) =>
          Cplx.mul (getZC a (((p : ℕ) : ℤ) + (j : ℤ))) (Cplx.conj (b.getD j Cplx.zero))), x = 1 := by
      intro x hx
      rw [List.mem_map] at hx
      obtain ⟨j, hjmem, hj⟩ := hx
      rw [List.mem_range] at hjmem
      rw [← hj]
      simp only [Function.comp]
      unfold getZC
      rw [if_pos (by omega)]
      have htn : (((p : ℕ) : ℤ) + (j : ℤ)).toNat = p + j := by omega
      rw [htn, ha]
      rw [if_pos (by omega)]
      have hidx : p + j - p = j := by omega
      rw [hidx, Cplx.mul_conj_self_re]
      exact hbget j hjmem
    have hsum := list_sum_of_all_one hall
    rw [List.length_map, List.length_range] at hsum
    rw [hsum]
  -- away from the aligned lag the real part is at most n - 1
  have hoff : ∀ lam : ℤ, lam ≠ (p : ℤ) → (corrAtC a b lam).re ≤ (n : ℚ) - 1 := by
    intro lam hne
    unfold corrAtC
    rw [Cplx.csum_re, hbn, List.map_map]
    have hle1 : ∀ x ∈ (List.range n).map
        (Cplx.re ∘ fun (j : ℕ) =>
          Cplx.mul (getZC a (lam + (j : ℤ))) (Cplx.conj (b.getD j Cplx.zero))), x ≤ 1 := by
      intro x hx
      rw [List.mem_map] at hx
      obtain ⟨j, hjmem, hj⟩ := hx
      rw [List.mem_range] at hjmem
      rw [← hj]
      simp only [Function.comp]
      exact hterm_le lam j hjmem
    rcases lt_or_gt_of_ne hne with hlt | hgt
    · have hz : ((List.range n).map
          (Cplx.re ∘ fun (j : ℕ) =>
            Cplx.mul (getZC a (lam + (j : ℤ))) (Cplx.conj (b.getD j Cplx.zero)))).getD 0 0 = 0 := by
        rw [getD_map_range _ 0 (by omega)]
        simp only [Function.comp]
        unfold getZC
        split
        · rw [ha]
          rw [if_neg (by omega), Cplx.mul_zero_left]
          rfl
        · rw [Cplx.mul_zero_left]
          rfl
      have h := list_sum_le_length_sub_one hle1
        (by rw [List.length_map, List.length_range]; omega) hz
      rw [List.length_map, List.length_range] at h
      exact h
    · have hz : ((List.range n).map
          (Cplx.re ∘ fun (j : ℕ) =>
            Cplx.mul (getZC a (lam + (j : ℤ))) (Cplx.conj (b.getD j Cplx.zero)))).getD (n - 1) 0 = 0 := by
        rw [getD_map_range _ 0 (by omega)]
        simp only [Function.comp]
        unfold getZC
        rw [if_pos (by omega)]
        rw [ha]
        rw [if_neg (by omega), Cplx.mul_zero_left]
        rfl
      have h := list_sum_le_length_sub_one hle1
        (by rw [List.length_map, List.length_range]; omega) hz
      rw [List.length_map, List.length_range] at h
      exact h
  -- assemble
  have hstar : p + n / 2 < L := by omega
  have hlamstar : ((p + n / 2 : ℕ) : ℤ) + (((n - 1) / 2 : ℕ) : ℤ) - ((n : ℤ) - 1) = (p : ℤ) := by
    omega
  have hvstar : ((corrSameC a b).getD (p + n / 2) Cplx.zero).re = (n : ℚ) := by
    rw [hget _ hstar, hlamstar]
    exact hpeak
  have hlt_of_ne : ∀ j, j < L → j ≠ p + n / 2 →
      (corrSameC a b).getD j Cplx.zero < (corrSameC a b).getD (p + n / 2) Cplx.zero := by
    intro j hjL hne
    rw [Cplx.lt_def]
    left
    rw [hvstar, hget _ hjL]
    have hnel : (j : ℤ) + (((n - 1) / 2 : ℕ) : ℤ) - ((n : ℤ) - 1) ≠ (p : ℤ) := by omega
    have := hoff _ hnel
    linarith
  refine npArgmax_eq_of_first_max Cplx.zero (by omega) ?_ ?_
  · intro j hj
    exact hlt_of_ne j (by omega) (by omega)
  · intro j hj
    rcases eq_or_ne j (p + n / 2) with heq | hne
    · rw [heq]
    · exact le_of_lt (hlt_of_ne j (by omega) hne)

/-! ## The lag vector at the correlation peak -/

/-- Value of `lags[argmax(xcorr)]` on the synthetic scenario.  The scipy
`correlation_lags`/`correlate` pair for mode `"same"` agrees on the lag of
output index `p + n/2` except when the window length `L` is odd while the
pilot length `n` is even, where `correlation_lags` is shifted by one. -/
theorem lags_at_peak (L n : ℕ) (hn : 1 ≤ n) (hL : 1 ≤ L) {p : ℕ} (hp : p + n ≤ L) :
    (correlation_lags_same L n).getD (p + n / 2) 0 =
      (p : ℤ) + (if L % 2 = 1 ∧ n % 2 = 0 then 1 else 0) := by
  rw [correlation_lags_same_getD L n hn hL (by omega)]
  by_cases hc : L % 2 = 1 ∧ n % 2 = 0
  · rw [if_pos hc]
    omega
  · rw [if_neg hc]
    omega

/-! ## Windowed slices of the synthetic signal -/

theorem pySlice_synthetic_getD (zc : List Cplx) (o N : ℕ) (hon : o + zc.length ≤ N)
    {s e : ℤ} (hs : 0 ≤ s) (hse : s ≤ e) (heN : e ≤ (N : ℤ))
    (hso : s.toNat ≤ o) (hoe : (o : ℤ) + zc.length ≤ e) (t : ℕ) :
    (pySlice (syntheticData zc o N) s e).getD t Cplx.zero =
      if o - s.toNat ≤ t ∧ t < o - s.toNat + zc.length then zc.getD (t - (o - s.toNat)) Cplx.zero
      else Cplx.zero := by
  have hdlen : (syntheticData zc o N).length = N := syntheticData_length zc o N hon
  have hlenN : e ≤ ((syntheticData zc o N).length : ℤ) := by rw [hdlen]; exact heN
  rcases lt_or_le t ((e - s).toNat) with ht | ht
  · rw [pySlice_getD _ Cplx.zero hs hse hlenN ht]
    rw [syntheticData_getD zc o N hon]
    by_cases hin : o - s.toNat ≤ t ∧ t < o - s.toNat + zc.length
    · rw [if_pos (by omega), if_pos hin]
      congr 1
      omega
    · rw [if_neg (by omega), if_neg hin]
  · have hLnat : (pySlice (syntheticData zc o N) s e).length = (e - s).toNat :=
      pySlice_length _ hs hse hlenN
    rw [List.getD_eq_default _ _ (by omega)]
    rw [if_neg (by omega)]

theorem npAbs_pySlice_synthetic (zc : List Cplx) (o N : ℕ) (hon : o + zc.length ≤ N)
    (hunit : ∀ z ∈ zc, z.normSq = 1)
    {s e : ℤ} (hs : 0 ≤ s) (hse : s ≤ e) (heN : e ≤ (N : ℤ))
    (hso : s.toNat ≤ o) (hoe : (o : ℤ) + zc.length ≤ e) (t : ℕ) :
    (npAbsList (pySlice (syntheticData zc o N) s e)).getD t 0 =
      if o - s.toNat ≤ t ∧ t < o - s.toNat + zc.length then 1 else 0 := by
  rw [npAbsList_getD, pySlice_synthetic_getD zc o N hon hs hse heN hso hoe]
  split
  case isTrue hin =>
    refine npAbs_of_normSq_one (hunit _ ?_)
    have hlt : t - (o - s.toNat) < zc.length := by omega
    rw [List.getD_eq_getElem _ _ hlt]
    exact List.getElem_mem _
  case isFalse hout => exact npAbs_zero

theorem npAbsList_all_one {zc : List Cplx} (hunit : ∀ z ∈ zc, z.normSq = 1) :
    ∀ j, j < zc.length → (npAbsList zc).getD j 0 = 1 := by
  intro j hj
  rw [npAbsList_getD]
  refine npAbs_of_normSq_one (hunit _ ?_)
  rw [List.getD_eq_getElem _ _ hj]
  exact List.getElem_mem _

/-! ## Unfolding a successful run of `synchronisation_zc` -/

theorem synchronisation_zc_run (data : List Cplx) (zc_root zc_length : ℤ) (resample : ℚ)
    (use_abs : Bool) (ratio_approx : ℤ) {am k : ℕ} {w n s e : ℤ} {zc dzc : List Cplx}
    (hw : w = uniformFilterLength zc_length resample)
    (hzc : zc = zadoffChuOf zc_root zc_length resample)
    (hn : n = (zc.length : ℤ))
    (hs : s = xcorrStartPoint (approxZc am w) n)
    (he : e = xcorrEndPoint (approxZc am w) n data.length)
    (hdzc : dzc = pySlice data s e)
    (hguard : ¬ (w ≤ 0))
    (henv : npArgmax (envelopeOf data w) = some am)
    (hcorr : xcorrArgmax use_abs dzc zc = some k) :
    synchronisation_zc data zc_root zc_length resample use_abs ratio_approx =
      .ok ((correlation_lags_same dzc.length zc.length).getD k 0 + s,
           n + ((correlation_lags_same dzc.length zc.length).getD k 0 + s)) := by
  subst hw hzc hn hs he hdzc
  simp only [synchronisation_zc]
  rw [if_neg hguard]
  simp only [henv, hcorr]

/-! ## The spec-side description of the synthetic-run geometry -/

/-- Coarse estimate produced by stage 1 on the synthetic signal:
`int(argmax(envelope) - n/2)` evaluated in closed form. -/
def syntheticCoarse (o n : ℕ) : ℤ :=
  if o = 0 then -(((n / 2 : ℕ)) : ℤ) else (o : ℤ) - ((n % 2 : ℕ) : ℤ)

/-- Length of the clipped Search Window used by stage 2 on the synthetic
signal (pilot length `n` at offset `o` in a signal of length `N`). -/
def syntheticWindowLen (o n N : ℕ) : ℤ :=
  min (syntheticCoarse o n + 2 * (n : ℤ)) (N : ℤ) - max (syntheticCoarse o n - 2 * (n : ℤ)) 0

/-! ## Exact recovery on the synthetic signal -/

/-- Master theorem for the exact-recovery property: placing the Upsampled
Pilot at offset `o` in an all-zero background of length `N ≥ 4n` makes
`synchronisation_zc` return exactly `(o, o+n)` — provided the clipped
Search Window length is even or the pilot length odd.  (In the excluded
parity case scipy's `correlation_lags`/`correlate` mode-`"same"` centering
mismatch shifts the result by one; see the counterexample for claim C2.) -/
theorem synthetic_exact_recovery (zc_root zc_length : ℤ) (resample : ℚ) (use_abs : Bool)
    (ratio_approx : ℤ) (o N : ℕ)
    (hl : 0 < zc_length) (hρ : 0 < resample)
    (hn1 : 1 ≤ (zadoffChuOf zc_root zc_length resample).length)
    (hN4 : 4 * (zadoffChuOf zc_root zc_length resample).length ≤ N)
    (hoN : o + (zadoffChuOf zc_root zc_length resample).length ≤ N)
    (hpar : syntheticWindowLen o (zadoffChuOf zc_root zc_length resample).length N % 2 = 0
            ∨ (zadoffChuOf zc_root zc_length resample).length % 2 = 1) :
    synchronisation_zc (syntheticData (zadoffChuOf zc_root zc_length resample) o N)
        zc_root zc_length resample use_abs ratio_approx =
      .ok ((o : ℤ), (o : ℤ) + ((zadoffChuOf zc_root zc_length resample).length : ℤ)) := by
  set zc : List Cplx := zadoffChuOf zc_root zc_length resample with hzcdef
  set n : ℕ := zc.length with hndef
  set data : List Cplx := syntheticData zc o N with hdatadef
  -- the filter window equals the upsampled pilot length
  have hlen_eq : n = (uniformFilterLength zc_length resample).toNat := by
    rw [hndef, hzcdef]
    exact zadoffChuOf_length hl resample
  have hwn : uniformFilterLength zc_length resample = (n : ℤ) := by omega
  have hguard : ¬ (uniformFilterLength zc_length resample ≤ 0) := by omega
  have hunit : ∀ z ∈ zc, z.normSq = 1 := fun z hz => zadoffChuOf_normSq hρ hz
  have hdatalen : data.length = N := syntheticData_length zc o N hoN
  have hind : ∀ t, (npAbsList data).getD t 0 = if o ≤ t ∧ t < o + n then 1 else 0 :=
    npAbsList_syntheticData zc o N hoN hunit
  -- stage 1: the envelope argmax
  set i0 : ℕ := if o = 0 then 0 else o + n / 2 with hi0def
  have henv : npArgmax (envelopeOf data (uniformFilterLength zc_length resample)) = some i0 := by
    unfold envelopeOf
    rw [hwn]
    have htn : ((n : ℤ)).toNat = n := rfl
    rw [htn]
    exact envelope_argmax_synthetic (npAbsList data) o n N hn1 hoN
      (by rw [npAbsList_length, hdatalen]) hind
  -- the coarse estimate in closed form
  have hA : approxZc i0 (uniformFilterLength zc_length resample) = syntheticCoarse o n := by
    rw [hwn, hi0def]
    rw [approxZc_synthetic o n hn1]
    unfold syntheticCoarse
    rfl
  have hA_le : syntheticCoarse o n ≤ (o : ℤ) := by
    unfold syntheticCoarse
    split <;> omega
  have hA_ge : (o : ℤ) - (n : ℤ) ≤ syntheticCoarse o n := by
    unfold syntheticCoarse
    split <;> omega
  -- the search window
  set s : ℤ := xcorrStartPoint (syntheticCoarse o n) (n : ℤ) with hsdef
  set e : ℤ := xcorrEndPoint (syntheticCoarse o n) (n : ℤ) N with hedef
  have hs_eq : s = max (syntheticCoarse o n - 2 * (n : ℤ)) 0 := by rw [hsdef]; rfl
  have he_eq : e = min (syntheticCoarse o n + 2 * (n : ℤ)) (N : ℤ) := by rw [hedef]; rfl
  have hs0 : 0 ≤ s := by rw [hs_eq]; omega
  have hso : s ≤ (o : ℤ) := by rw [hs_eq]; omega
  have hoe : (o : ℤ) + (n : ℤ) ≤ e := by rw [he_eq]; omega
  have heN : e ≤ (N : ℤ) := by rw [he_eq]; omega
  have hse : s ≤ e := by omega
  set dzc : List Cplx := pySlice data s e with hdzcdef
  have hdzclen : dzc.length = (e - s).toNat := by
    rw [hdzcdef]
    exact pySlice_length data hs0 hse (by rw [hdatalen]; exact heN)
  set p : ℕ := o - s.toNat with hpdef
  have hsonat : s.toNat ≤ o := by omega
  have hpn : p + n ≤ (e - s).toNat := by omega
  -- stage 2: the correlation argmax
  have hcorr : xcorrArgmax use_abs dzc zc = some (p + n / 2) := by
    have hadzc : ∀ t, dzc.getD t Cplx.zero =
        if p ≤ t ∧ t < p + n then zc.getD (t - p) Cplx.zero else Cplx.zero := by
      intro t
      rw [hdzcdef, hdatadef]
      rw [pySlice_synthetic_getD zc o N hoN hs0 hse heN hsonat (by omega) t]
    cases use_abs with
    | true =>
      simp only [xcorrArgmax, if_true]
      refine corrQ_argmax (npAbsList dzc) (npAbsList zc) p n ((e - s).toNat)
        (by rw [npAbsList_length, hdzclen]) (by rw [npAbsList_length]) hn1 hpn
        (npAbsList_all_one hunit) ?_
      intro t
      rw [npAbsList_getD, hadzc t]
      split
      case isTrue hin =>
        refine npAbs_of_normSq_one (hunit _ ?_)
        have hlt : t - p < zc.length := by omega
        rw [List.getD_eq_getElem _ _ hlt]
        exact List.getElem_mem _
      case isFalse hout => exact npAbs_zero
    | false =>
      simp only [xcorrArgmax, if_false]
      exact corrC_argmax dzc zc p n ((e - s).toNat) hdzclen rfl hn1 hpn hunit hadzc
  -- run the function
  have hrun := synchronisation_zc_run data zc_root zc_length resample use_abs ratio_approx
    rfl hzcdef (by rw [hndef] : ((n : ℕ) : ℤ) = ((zc.length : ℕ) : ℤ))
    (by rw [hsdef, hA]) (by rw [hedef, hA, hdatalen]) hdzcdef
    hguard henv hcorr
  rw [hrun]
  -- evaluate the selected lag
  have hlags : (correlation_lags_same dzc.length zc.length).getD (p + n / 2) 0 =
      (p : ℤ) + (if (e - s).toNat % 2 = 1 ∧ n % 2 = 0 then 1 else 0) := by
    rw [hdzclen, ← hndef]
    exact lags_at_peak ((e - s).toNat) n hn1 (by omega) hpn
  have hwin : (e - s : ℤ) = syntheticWindowLen o n N := by
    unfold syntheticWindowLen
    rw [hs_eq, he_eq]
  have hdelta : (if (e - s).toNat % 2 = 1 ∧ n % 2 = 0 then 1 else 0 : ℤ) = 0 := by
    rcases hpar with hpar | hpar
    · rw [if_neg]
      intro hcon
      omega
    · rw [if_neg]
      intro hcon
      omega
  rw [hlags, hdelta]
  simp only [Except.ok.injEq, Prod.mk.injEq]
  constructor <;> omega

/-! ## The Windowed Correlator as described by the specification (§4.2) -/

/-- Spec-side description of stage 2 (the Windowed Correlator): clip the
Search Window `[max(approx-2n,0), min(approx+2n,N))`, extract it, build the
mode-same lag vector, pick the argmax of the selected cross-correlation and
convert the window-local lag to global indices. -/
def windowedCorrelator (data : List Cplx) (approx_zc : ℤ) (zadoff_chu : List Cplx)
    (use_abs : Bool) : Except SyncError (ℤ × ℤ) :=
  let n : ℤ := (zadoff_chu.length : ℤ)
  let start := max (approx_zc - 2 * n) 0
  let stop := min (approx_zc + 2 * n) (data.length : ℤ)
  let windowed_signal := pySlice data start stop
  let lags := correlation_lags_same windowed_signal.length zadoff_chu.length
  match xcorrArgmax use_abs windowed_signal zadoff_chu with
  | none => .error .emptyArgmax
  | some k => .ok (lags.getD k 0 + start, n + (lags.getD k 0 + start))

/-- Length of the envelope equals the length of the signal. -/
theorem envelopeOf_length (data : List Cplx) (ufl : ℤ) :
    (envelopeOf data ufl).length = data.length := by
  unfold envelopeOf
  rw [uniform_filter1d_length, npAbsList_length]

/-! ## Claim theorems -/

/-- C1 (counterexample): called with `zc_length = 0` (a nonpositive pilot
length) on a nonempty signal, `synchronisation_zc` does not raise the
`InvalidParameterError` the specification promises; the failure surfaces as
scipy's invalid-filter-size error inside `uniform_filter1d`. -/
theorem C1_cex :
    synchronisation_zc [Cplx.mk 1 0] 1 0 1 true 50 = .error .invalidFilterSize ∧
    synchronisation_zc [Cplx.mk 1 0] 1 0 1 true 50 ≠ .error .invalidParameter := by
  have h1 : synchronisation_zc [Cplx.mk 1 0] 1 0 1 true 50 = .error .invalidFilterSize := by
    with_unfolding_all rfl
  exact ⟨h1, by rw [h1]; simp⟩

/-- C1 (amended): `synchronisation_zc` performs no parameter validation and
never raises an `InvalidParameterError`.  A nonpositive derived window
(which covers nonpositive `zc_length` with positive `resample`, nonpositive
`resample` with positive `zc_length`, and a product that truncates to zero)
or an empty signal instead surfaces as a collaborator error: scipy's
invalid filter size, or numpy's argmax-of-empty error. -/
theorem C1_amended (data : List Cplx) (zc_root zc_length : ℤ) (resample : ℚ)
    (use_abs : Bool) (ratio_approx : ℤ)
    (hbad : uniformFilterLength zc_length resample ≤ 0 ∨ data = []) :
    ∃ err : SyncError,
      synchronisation_zc data zc_root zc_length resample use_abs ratio_approx = .error err ∧
      err ≠ .invalidParameter := by
  by_cases hg : uniformFilterLength zc_length resample ≤ 0
  · refine ⟨.invalidFilterSize, ?_, by decide⟩
    simp only [synchronisation_zc]
    rw [if_pos hg]
  · have hb : data = [] := by
      rcases hbad with hb | hb
      · exact absurd hb hg
      · exact hb
    refine ⟨.emptyArgmax, ?_, by decide⟩
    simp only [synchronisation_zc]
    rw [if_neg hg]
    have henv : npArgmax (envelopeOf data (uniformFilterLength zc_length resample)) = none := by
      subst hb
      rfl
    simp only [henv]

/-- C1 (witness for the amended claim): the call of the counterexample
satisfies the amended claim's hypothesis and conclusion. -/
theorem C1_amended_wit :
    (uniformFilterLength 0 1 ≤ 0 ∨ ([Cplx.mk 1 0] : List Cplx) = []) ∧
    (∃ err : SyncError,
      synchronisation_zc [Cplx.mk 1 0] 1 0 1 true 50 = .error err ∧
      err ≠ .invalidParameter) :=
  ⟨Or.inl (by with_unfolding_all decide),
   C1_amended [Cplx.mk 1 0] 1 0 1 true 50 (Or.inl (by with_unfolding_all decide))⟩

/-- C3: for every call that returns successfully, the returned pair
satisfies `end_zc - beginning_zc = n`, the length of the Upsampled Pilot
(the Zadoff-Chu sequence after resampling). -/
theorem C3_thm (data : List Cplx) (zc_root zc_length : ℤ) (resample : ℚ) (use_abs : Bool)
    (ratio_approx : ℤ) (b e : ℤ)
    (h : synchronisation_zc data zc_root zc_length resample use_abs ratio_approx = .ok (b, e)) :
    e - b = ((zadoffChuOf zc_root zc_length resample).length : ℤ) := by
  simp only [synchronisation_zc] at h
  split at h
  · exact absurd h (by simp)
  · split at h
    · exact absurd h (by simp)
    · split at h
      · exact absurd h (by simp)
      · simp only [Except.ok.injEq, Prod.mk.injEq] at h
        omega

/-- C3 (witness): a concrete successful call, with difference exactly the
Upsampled Pilot's length. -/
theorem C3_wit :
    synchronisation_zc (Cplx.mk 1 0 :: List.replicate 3 Cplx.zero) 1 1 1 true 50 = .ok (0, 1) ∧
    (1 : ℤ) - 0 = ((zadoffChuOf 1 1 1).length : ℤ) :=
  ⟨by with_unfolding_all rfl,
   C3_thm (Cplx.mk 1 0 :: List.replicate 3 Cplx.zero) 1 1 1 true 50 0 1
     (by with_unfolding_all rfl)⟩

/-- C6 (counterexample): with `zc_length = 3` and `resample = 1/2`, the
code computes the averaging-window length `int(3 * 0.5) = 1` by truncation,
whereas the claimed round-to-nearest would give `2`. -/
theorem C6_cex :
    uniformFilterLength 3 (1 / 2) = 1 ∧ round ((3 : ℚ) * (1 / 2)) = 2 ∧ (1 : ℤ) ≠ 2 := by
  refine ⟨by with_unfolding_all rfl, ?_, by decide⟩
  norm_num [round_eq]

/-- C6 (amended): for positive `zc_length` and `resample`, the
averaging-window length equals `zc_length * resample` truncated toward zero
(Python `int()`), which on positive values is the floor - not the nearest
integer. -/
theorem C6_amended (zc_length : ℤ) (resample : ℚ) (hl : 0 < zc_length) (hρ : 0 < resample) :
    uniformFilterLength zc_length resample = ⌊(zc_length : ℚ) * resample⌋ := by
  unfold uniformFilterLength
  refine ratTrunc_of_nonneg ?_
  have h1 : (0 : ℚ) < (zc_length : ℚ) := by exact_mod_cast hl
  positivity

/-- C6 (witness for the amended claim). -/
theorem C6_amended_wit :
    (0 : ℤ) < 3 ∧ (0 : ℚ) < 1 / 2 ∧ uniformFilterLength 3 (1 / 2) = ⌊(3 : ℚ) * (1 / 2)⌋ :=
  ⟨by decide, by norm_num, C6_amended 3 (1 / 2) (by decide) (by norm_num)⟩

/-- C9: `ratio_approx` does not influence the computation — two calls
differing only in `ratio_approx` return identical results. -/
theorem C9_thm (data : List Cplx) (zc_root zc_length : ℤ) (resample : ℚ) (use_abs : Bool)
    (ratio_approx₁ ratio_approx₂ : ℤ) :
    synchronisation_zc data zc_root zc_length resample use_abs ratio_approx₁ =
      synchronisation_zc data zc_root zc_length resample use_abs ratio_approx₂ := rfl

/-- The concrete signal of claim C10: a single unit-magnitude sample at
index 0 followed by zeros. -/
def dataC10 : List Cplx := Cplx.mk 1 0 :: List.replicate 7 Cplx.zero

/-- C10: a valid input (nonempty signal, positive `zc_length` and
`resample`) on which `synchronisation_zc` returns a negative beginning
index: the envelope peaks at the start, the window start clips to 0, and
the selected mode-same lag is negative. -/
theorem C10_thm :
    dataC10 ≠ [] ∧ (0 : ℤ) < 4 ∧ (0 : ℚ) < 1 ∧
    synchronisation_zc dataC10 1 4 1 true 50 = .ok (-2, 2) ∧ (-2 : ℤ) < 0 := by
  refine ⟨by decide, by decide, by norm_num, by with_unfolding_all rfl, by decide⟩

/-- C2 (counterexample): pilot of length `n = 2` placed at offset `o = 1`
in an all-zero background of length `N = 8 ≥ 4n` (resample 1, `use_abs`
true).  The claim demands `(1, 3)`; the function returns `(2, 4)`: the
clipped window has odd length 5 while `n` is even, and scipy's
`correlation_lags` mode-same vector is shifted by one against the
mode-same correlation it is meant to index. -/
theorem C2_cex :
    (zadoffChuOf 1 2 1).length = 2 ∧ 1 + 2 ≤ 8 ∧ 4 * 2 ≤ 8 ∧
    synchronisation_zc (syntheticData (zadoffChuOf 1 2 1) 1 8) 1 2 1 true 50 = .ok (2, 4) ∧
    ((2 : ℤ), (4 : ℤ)) ≠ ((1 : ℤ), 1 + 2) := by
  refine ⟨by with_unfolding_all rfl, by decide, by decide, by with_unfolding_all rfl, by decide⟩

/-- C2 (amended): for every synthetic signal of length `N ≥ 4n` consisting
of an all-zero background with a copy of the Upsampled Pilot of length `n`
placed at offset `o` (pilot fully in-bounds), `synchronisation_zc` returns
exactly `(o, o+n)` for every `resample > 0` and both values of `use_abs` —
provided the clipped Search Window length is even or `n` is odd (otherwise
the result is shifted by one, see the counterexample). -/
theorem C2_thm (zc_root zc_length : ℤ) (resample : ℚ) (use_abs : Bool) (ratio_approx : ℤ)
    (o N : ℕ) (hl : 0 < zc_length) (hρ : 0 < resample)
    (hn1 : 1 ≤ (zadoffChuOf zc_root zc_length resample).length)
    (hN4 : 4 * (zadoffChuOf zc_root zc_length resample).length ≤ N)
    (hoN : o + (zadoffChuOf zc_root zc_length resample).length ≤ N)
    (hpar : syntheticWindowLen o (zadoffChuOf zc_root zc_length resample).length N % 2 = 0
            ∨ (zadoffChuOf zc_root zc_length resample).length % 2 = 1) :
    synchronisation_zc (syntheticData (zadoffChuOf zc_root zc_length resample) o N)
        zc_root zc_length resample use_abs ratio_approx =
      .ok ((o : ℤ), (o : ℤ) + ((zadoffChuOf zc_root zc_length resample).length : ℤ)) :=
  synthetic_exact_recovery zc_root zc_length resample use_abs ratio_approx o N hl hρ hn1 hN4
    hoN hpar

/-- C2 (witness for the amended claim): pilot length 2 at offset 4 in a
background of length 16; the window is unclipped (length 8, even), and the
function returns exactly `(4, 6)`. -/
theorem C2_wit :
    ((0 : ℤ) < 2 ∧ (0 : ℚ) < 1 ∧ 1 ≤ (zadoffChuOf 1 2 1).length ∧
      4 * (zadoffChuOf 1 2 1).length ≤ 16 ∧ 4 + (zadoffChuOf 1 2 1).length ≤ 16 ∧
      (syntheticWindowLen 4 (zadoffChuOf 1 2 1).length 16 % 2 = 0 ∨
        (zadoffChuOf 1 2 1).length % 2 = 1)) ∧
    synchronisation_zc (syntheticData (zadoffChuOf 1 2 1) 4 16) 1 2 1 true 50 = .ok (4, 6) := by
  refine ⟨⟨by decide, by norm_num, by with_unfolding_all decide, by with_unfolding_all decide,
    by with_unfolding_all decide, Or.inl (by with_unfolding_all decide)⟩, ?_⟩
  have h := C2_thm 1 2 1 true 50 4 16 (by decide) (by norm_num) (by with_unfolding_all decide)
    (by with_unfolding_all decide) (by with_unfolding_all decide)
    (Or.inl (by with_unfolding_all decide))
  rw [h]
  with_unfolding_all rfl

/-- C4: the Search Window bounds are `start = max(approx_zc - 2n, 0)` and
`end = min(approx_zc + 2n, N)`, clipped to `[0, N]`, with `start ≤ end`,
and the extracted slice has exactly `end - start` samples — so the window
access never goes out of range, wherever the envelope peak lies. -/
theorem C4_thm (data : List Cplx) (zc_root zc_length : ℤ) (resample : ℚ) {am : ℕ}
    (hl : 0 < zc_length)
    (hw : 1 ≤ uniformFilterLength zc_length resample)
    (henv : npArgmax (envelopeOf data (uniformFilterLength zc_length resample)) = some am) :
    0 ≤ xcorrStartPoint (approxZc am (uniformFilterLength zc_length resample))
        ((zadoffChuOf zc_root zc_length resample).length : ℤ) ∧
    xcorrStartPoint (approxZc am (uniformFilterLength zc_length resample))
        ((zadoffChuOf zc_root zc_length resample).length : ℤ) ≤
      xcorrEndPoint (approxZc am (uniformFilterLength zc_length resample))
        ((zadoffChuOf zc_root zc_length resample).length : ℤ) data.length ∧
    xcorrEndPoint (approxZc am (uniformFilterLength zc_length resample))
        ((zadoffChuOf zc_root zc_length resample).length : ℤ) data.length ≤
      (data.length : ℤ) ∧
    (pySlice data
        (xcorrStartPoint (approxZc am (uniformFilterLength zc_length resample))
          ((zadoffChuOf zc_root zc_length resample).length : ℤ))
        (xcorrEndPoint (approxZc am (uniformFilterLength zc_length resample))
          ((zadoffChuOf zc_root zc_length resample).length : ℤ) data.length)).length =
      (xcorrEndPoint (approxZc am (uniformFilterLength zc_length resample))
          ((zadoffChuOf zc_root zc_length resample).length : ℤ) data.length -
        xcorrStartPoint (approxZc am (uniformFilterLength zc_length resample))
          ((zadoffChuOf zc_root zc_length resample).length : ℤ)).toNat ∧
    xcorrStartPoint (approxZc am (uniformFilterLength zc_length resample))
        ((zadoffChuOf zc_root zc_length resample).length : ℤ) =
      max (approxZc am (uniformFilterLength zc_length resample) -
        2 * ((zadoffChuOf zc_root zc_length resample).length : ℤ)) 0 ∧
    xcorrEndPoint (approxZc am (uniformFilterLength zc_length resample))
        ((zadoffChuOf zc_root zc_length resample).length : ℤ) data.length =
      min (approxZc am (uniformFilterLength zc_length resample) +
        2 * ((zadoffChuOf zc_root zc_length resample).length : ℤ)) (data.length : ℤ) := by
  set w : ℤ := uniformFilterLength zc_length resample with hwdef
  set nZ : ℤ := ((zadoffChuOf zc_root zc_length resample).length : ℤ) with hnZdef
  have hnw : nZ = w := by
    rw [hnZdef, zadoffChuOf_length hl resample]
    omega
  have ham : am < data.length := by
    have h1 := npArgmax_lt_length henv
    rwa [envelopeOf_length] at h1
  have hw0 : (0 : ℚ) ≤ ((w : ℤ) : ℚ) := by exact_mod_cast (by omega : (0 : ℤ) ≤ w)
  have happrox_le : approxZc am w ≤ (am : ℤ) := by
    unfold approxZc
    refine ratTrunc_le_of_le ?_
    push_cast
    push_cast at hw0
    linarith
  have happrox_ge : -w ≤ approxZc am w := by
    unfold approxZc
    refine le_ratTrunc_of_le ?_
    have ham0 : (0 : ℚ) ≤ (am : ℚ) := by positivity
    push_cast
    push_cast at hw0
    linarith
  have hs_eq : xcorrStartPoint (approxZc am w) nZ = max (approxZc am w - 2 * nZ) 0 := rfl
  have he_eq : xcorrEndPoint (approxZc am w) nZ data.length =
      min (approxZc am w + 2 * nZ) (data.length : ℤ) := rfl
  have hb1 : 0 ≤ xcorrStartPoint (approxZc am w) nZ := by rw [hs_eq]; omega
  have hb2 : xcorrStartPoint (approxZc am w) nZ ≤ xcorrEndPoint (approxZc am w) nZ data.length := by
    rw [hs_eq, he_eq]
    omega
  have hb3 : xcorrEndPoint (approxZc am w) nZ data.length ≤ (data.length : ℤ) := by
    rw [he_eq]
    omega
  exact ⟨hb1, hb2, hb3, pySlice_length data hb1 hb2 hb3, hs_eq, he_eq⟩

/-- C4 (witness). -/
theorem C4_wit :
    (0 : ℤ) < 1 ∧ 1 ≤ uniformFilterLength 1 1 ∧
    npArgmax (envelopeOf (Cplx.mk 1 0 :: List.replicate 3 Cplx.zero) (uniformFilterLength 1 1)) =
      some 0 ∧
    0 ≤ xcorrStartPoint (approxZc 0 (uniformFilterLength 1 1)) ((zadoffChuOf 1 1 1).length : ℤ) := by
  have h1 : npArgmax (envelopeOf (Cplx.mk 1 0 :: List.replicate 3 Cplx.zero)
      (uniformFilterLength 1 1)) = some 0 := by with_unfolding_all rfl
  have h2 : 1 ≤ uniformFilterLength 1 1 := by with_unfolding_all decide
  exact ⟨by decide, h2,  h1,
    (C4_thm (Cplx.mk 1 0 :: List.replicate 3 Cplx.zero) 1 1 1 (by decide) h2 h1).1⟩

/-- C5: every successful result decomposes as
`beginning_zc = lags[argmax(xcorr)] + xcorr_start_point` (the window-local
lag converted to a global index) and `end_zc = beginning_zc + n`. -/
theorem C5_thm (data : List Cplx) (zc_root zc_length : ℤ) (resample : ℚ) (use_abs : Bool)
    (ratio_approx : ℤ) (b e : ℤ)
    (h : synchronisation_zc data zc_root zc_length resample use_abs ratio_approx = .ok (b, e)) :
    ∃ am k : ℕ,
      npArgmax (envelopeOf data (uniformFilterLength zc_length resample)) = some am ∧
      xcorrArgmax use_abs
        (pySlice data
          (xcorrStartPoint (approxZc am (uniformFilterLength zc_length resample))
            ((zadoffChuOf zc_root zc_length resample).length : ℤ))
          (xcorrEndPoint (approxZc am (uniformFilterLength zc_length resample))
            ((zadoffChuOf zc_root zc_length resample).length : ℤ) data.length))
        (zadoffChuOf zc_root zc_length resample) = some k ∧
      b = (correlation_lags_same
            (pySlice data
              (xcorrStartPoint (approxZc am (uniformFilterLength zc_length resample))
                ((zadoffChuOf zc_root zc_length resample).length : ℤ))
              (xcorrEndPoint (approxZc am (uniformFilterLength zc_length resample))
                ((zadoffChuOf zc_root zc_length resample).length : ℤ) data.length)).length
            (zadoffChuOf zc_root zc_length resample).length).getD k 0 +
          xcorrStartPoint (approxZc am (uniformFilterLength zc_length resample))
            ((zadoffChuOf zc_root zc_length resample).length : ℤ) ∧
      e = b + ((zadoffChuOf zc_root zc_length resample).length : ℤ) := by
  simp only [synchronisation_zc] at h
  by_cases hg : uniformFilterLength zc_length resample ≤ 0
  · rw [if_pos hg] at h
    exact absurd h (by simp)
  · rw [if_neg hg] at h
    cases hE : npArgmax (envelopeOf data (uniformFilterLength zc_length resample)) with
    | none =>
      simp only [hE] at h
      exact absurd h (by simp)
    | some am =>
      simp only [hE] at h
      cases hC : xcorrArgmax use_abs
          (pySlice data
            (xcorrStartPoint (approxZc am (uniformFilterLength zc_length resample))
              ((zadoffChuOf zc_root zc_length resample).length : ℤ))
            (xcorrEndPoint (approxZc am (uniformFilterLength zc_length resample))
              ((zadoffChuOf zc_root zc_length resample).length : ℤ) data.length))
          (zadoffChuOf zc_root zc_length resample) with
      | none =>
        simp only [hC] at h
        exact absurd h (by simp)
      | some k =>
        simp only [hC, Except.ok.injEq, Prod.mk.injEq] at h
        exact ⟨am, k, rfl, hC, h.1.symm, by omega⟩

/-- C5 (witness): the decomposition at a concrete successful call. -/
theorem C5_wit :
    synchronisation_zc (Cplx.mk 1 0 :: List.replicate 3 Cplx.zero) 1 1 1 true 50 = .ok (0, 1) ∧
    (∃ am k : ℕ,
      npArgmax (envelopeOf (Cplx.mk 1 0 :: List.replicate 3 Cplx.zero)
        (uniformFilterLength 1 1)) = some am ∧
      xcorrArgmax true
        (pySlice (Cplx.mk 1 0 :: List.replicate 3 Cplx.zero)
          (xcorrStartPoint (approxZc am (uniformFilterLength 1 1))
            ((zadoffChuOf 1 1 1).length : ℤ))
          (xcorrEndPoint (approxZc am (uniformFilterLength 1 1))
            ((zadoffChuOf 1 1 1).length : ℤ)
            (Cplx.mk 1 0 :: List.replicate 3 Cplx.zero).length))
        (zadoffChuOf 1 1 1) = some k ∧
      (0 : ℤ) = (correlation_lags_same
            (pySlice (Cplx.mk 1 0 :: List.replicate 3 Cplx.zero)
              (xcorrStartPoint (approxZc am (uniformFilterLength 1 1))
                ((zadoffChuOf 1 1 1).length : ℤ))
              (xcorrEndPoint (approxZc am (uniformFilterLength 1 1))
                ((zadoffChuOf 1 1 1).length : ℤ)
                (Cplx.mk 1 0 :: List.replicate 3 Cplx.zero).length)).length
            (zadoffChuOf 1 1 1).length).getD k 0 +
          xcorrStartPoint (approxZc am (uniformFilterLength 1 1))
            ((zadoffChuOf 1 1 1).length : ℤ) ∧
      (1 : ℤ) = 0 + ((zadoffChuOf 1 1 1).length : ℤ)) :=
  ⟨by with_unfolding_all rfl,
   C5_thm (Cplx.mk 1 0 :: List.replicate 3 Cplx.zero) 1 1 1 true 50 0 1
     (by with_unfolding_all rfl)⟩

/-- C7: the function factors through the Windowed Correlator applied to
the coarse estimate `int(argmax(envelope) - w/2)` (truncation toward
zero), where the envelope is the smoothed magnitude profile and `w` the
averaging-window length. -/
theorem C7_thm (data : List Cplx) (zc_root zc_length : ℤ) (resample : ℚ) (use_abs : Bool)
    (ratio_approx : ℤ)
    (hw : 1 ≤ uniformFilterLength zc_length resample) (hd : data ≠ []) :
    ∃ am : ℕ,
      npArgmax (envelopeOf data (uniformFilterLength zc_length resample)) = some am ∧
      synchronisation_zc data zc_root zc_length resample use_abs ratio_approx =
        windowedCorrelator data
          (ratTrunc ((am : ℚ) - ((uniformFilterLength zc_length resample : ℤ) : ℚ) / 2))
          (zadoffChuOf zc_root zc_length resample) use_abs := by
  have hne : envelopeOf data (uniformFilterLength zc_length resample) ≠ [] := by
    intro hcon
    apply hd
    have h1 := congrArg List.length hcon
    rw [envelopeOf_length] at h1
    simp only [List.length_nil] at h1
    exact List.length_eq_zero.1 h1
  obtain ⟨am, ham⟩ := npArgmax_isSome hne
  refine ⟨am, ham, ?_⟩
  simp only [synchronisation_zc]
  rw [if_neg (by omega)]
  simp only [ham]
  rfl

/-- C7 (witness). -/
theorem C7_wit :
    (1 ≤ uniformFilterLength 1 1 ∧ (Cplx.mk 1 0 :: List.replicate 3 Cplx.zero) ≠ []) ∧
    (∃ am : ℕ,
      npArgmax (envelopeOf (Cplx.mk 1 0 :: List.replicate 3 Cplx.zero)
        (uniformFilterLength 1 1)) = some am ∧
      synchronisation_zc (Cplx.mk 1 0 :: List.replicate 3 Cplx.zero) 1 1 1 true 50 =
        windowedCorrelator (Cplx.mk 1 0 :: List.replicate 3 Cplx.zero)
          (ratTrunc ((am : ℚ) - ((uniformFilterLength 1 1 : ℤ) : ℚ) / 2))
          (zadoffChuOf 1 1 1) true) :=
  ⟨⟨by with_unfolding_all decide, by decide⟩,
   C7_thm (Cplx.mk 1 0 :: List.replicate 3 Cplx.zero) 1 1 1 true 50
     (by with_unfolding_all decide) (by decide)⟩

/-- C8: the lag index selected from the cross-correlation is the first
maximal one — in both correlation branches, the selected index holds the
maximum of the correlation sequence and every earlier index holds a
strictly smaller value (for the complex branch, in numpy's lexicographic
order). -/
theorem C8_thm (use_abs : Bool) (data_zc zadoff_chu : List Cplx) (k : ℕ)
    (h : xcorrArgmax use_abs data_zc zadoff_chu = some k) :
    (use_abs = true →
      k < (corrSameQ (npAbsList data_zc) (npAbsList zadoff_chu)).length ∧
      (∀ j, j < (corrSameQ (npAbsList data_zc) (npAbsList zadoff_chu)).length →
        (corrSameQ (npAbsList data_zc) (npAbsList zadoff_chu)).getD j 0 ≤
          (corrSameQ (npAbsList data_zc) (npAbsList zadoff_chu)).getD k 0) ∧
      (∀ j, j < k →
        (corrSameQ (npAbsList data_zc) (npAbsList zadoff_chu)).getD j 0 <
          (corrSameQ (npAbsList data_zc) (npAbsList zadoff_chu)).getD k 0)) ∧
    (use_abs = false →
      k < (corrSameC data_zc zadoff_chu).length ∧
      (∀ j, j < (corrSameC data_zc zadoff_chu).length →
        (corrSameC data_zc zadoff_chu).getD j Cplx.zero ≤
          (corrSameC data_zc zadoff_chu).getD k Cplx.zero) ∧
      (∀ j, j < k →
        (corrSameC data_zc zadoff_chu).getD j Cplx.zero <
          (corrSameC data_zc zadoff_chu).getD k Cplx.zero)) := by
  constructor
  · intro hu
    subst hu
    simp only [xcorrArgmax, if_true] at h
    exact ⟨npArgmax_lt_length h, npArgmax_le 0 h, npArgmax_first 0 h⟩
  · intro hu
    subst hu
    simp only [xcorrArgmax, Bool.false_eq_true, if_false] at h
    exact ⟨npArgmax_lt_length h, npArgmax_le Cplx.zero h, npArgmax_first Cplx.zero h⟩

/-- C8 (witness). -/
theorem C8_wit :
    xcorrArgmax true [Cplx.mk 1 0] [Cplx.mk 1 0] = some 0 ∧
    ((true = true →
      0 < (corrSameQ (npAbsList [Cplx.mk 1 0]) (npAbsList [Cplx.mk 1 0])).length ∧
      (∀ j, j < (corrSameQ (npAbsList [Cplx.mk 1 0]) (npAbsList [Cplx.mk 1 0])).length →
        (corrSameQ (npAbsList [Cplx.mk 1 0]) (npAbsList [Cplx.mk 1 0])).getD j 0 ≤
          (corrSameQ (npAbsList [Cplx.mk 1 0]) (npAbsList [Cplx.mk 1 0])).getD 0 0) ∧
      (∀ j, j < 0 →
        (corrSameQ (npAbsList [Cplx.mk 1 0]) (npAbsList [Cplx.mk 1 0])).getD j 0 <
          (corrSameQ (npAbsList [Cplx.mk 1 0]) (npAbsList [Cplx.mk 1 0])).getD 0 0)) ∧
    (true = false →
      0 < (corrSameC [Cplx.mk 1 0] [Cplx.mk 1 0]).length ∧
      (∀ j, j < (corrSameC [Cplx.mk 1 0] [Cplx.mk 1 0]).length →
        (corrSameC [Cplx.mk 1 0] [Cplx.mk 1 0]).getD j Cplx.zero ≤
          (corrSameC [Cplx.mk 1 0] [Cplx.mk 1 0]).getD 0 Cplx.zero) ∧
      (∀ j, j < 0 →
        (corrSameC [Cplx.mk 1 0] [Cplx.mk 1 0]).getD j Cplx.zero <
          (corrSameC [Cplx.mk 1 0] [Cplx.mk 1 0]).getD 0 Cplx.zero))) :=
  ⟨by with_unfolding_all rfl,
   C8_thm true [Cplx.mk 1 0] [Cplx.mk 1 0] 0 (by with_unfolding_all rfl)⟩
